import Mathlib

/-!
# Maze escape: distributed level-synchronous BFS

A shallow embedding of `Assignment1/P1-MazeEscape/1.cpp`.

The MPI program is SPMD: `size` processes run `distributedBFS` in lock step and
meet at the collectives (`MPI_Bcast`, `MPI_Allgather`, `MPI_Allgatherv`,
`MPI_Allreduce`).  The embedding keeps one `Worker` record per process in a
list ordered by rank; the code between two collectives is a function applied
to every record, and a collective is a function of the whole list.

Vertex ids, sizes and distances are natural numbers.  `INF` is the 32-bit
`INT_MAX`.  Reads and writes outside a vector are undefined behaviour in the
source; here a read outside yields the default and a write outside is dropped,
and the theorems assume ids in range.  The only `int` that the algorithm
increments is `level`; the halting theorem bounds `level + 1` by `N`, and `N`
is an `int`, so the theorems assume `N <= INF` and `level + 1` is written
without wrap-around.

Layout of the file: the embedding of the maze program with its path predicates
and the predicates used by the proofs, the embedding of the bouncing-balls
program, then for each program its lemmas followed by one theorem per claim.
-/

namespace MazeEscape

/-! ## Data model -/

/-- The sentinel `const int INF = numeric_limits<int>::max();` (1.cpp line 6). -/
def INF : Nat := 2147483647

/-- The replicated adjacency structure `vector<vector<int>> graph`. -/
abbrev Graph := List (List Nat)

/-- The state of one process that survives from one level to the next:
its `rank`, its copy of `dist`, and its `Frontier`. -/
structure Worker where
  rank : Nat
  dist : List Nat
  Frontier : List Nat
deriving DecidableEq, Repr

/-- The state of one process inside a level: its copy of `dist`, the
`NextFrontier` under construction and its `SendBuf`. -/
structure ScanState where
  dist : List Nat
  NextFrontier : List Nat
  SendBuf : List Nat
deriving DecidableEq, Repr

/-! ## `distributedBFS` (1.cpp lines 9-87) -/

/-- The body of the inner loop `for (int v : graph[u])` (lines 32-41). -/
def visit (rank size level : Nat) (st : ScanState) (v : Nat) : ScanState :=
  if st.dist.getD v INF = INF then
    if v % size = rank then
      if st.dist.getD v INF = INF then
        { st with dist := st.dist.set v (level + 1),
                  NextFrontier := st.NextFrontier ++ [v] }
      else st
    else { st with SendBuf := st.SendBuf ++ [v] }
  else st

/-- The frontier scan `for (int u : Frontier) for (int v : graph[u])`
(lines 29-42); `NextFrontier` and `SendBuf` start empty. -/
def scanFrontier (rank size level : Nat) (graph : Graph)
    (Frontier dist : List Nat) : ScanState :=
  Frontier.foldl
    (fun st u => (graph.getD u []).foldl (visit rank size level) st)
    { dist := dist, NextFrontier := [], SendBuf := [] }

/-- The offsets `displs` (lines 54-55): all zero, then
`displs[i] = displs[i-1] + recvSizes[i-1]` for `i = 1 .. size-1`. -/
def computeDispls (size : Nat) (recvSizes : List Nat) : List Nat :=
  (List.range (size - 1)).foldl
    (fun displs j => displs.set (j + 1) (displs.getD j 0 + recvSizes.getD j 0))
    (List.replicate size 0)

/-- Copy the block `seg` into `buf` starting at offset `off`. -/
def placeAt (buf : List Nat) (off : Nat) (seg : List Nat) : List Nat :=
  buf.take off ++ seg ++ buf.drop (off + seg.length)

/-- The collective `MPI_Allgatherv` (line 57): the first `recvSizes[i]` entries sent by
rank `i` land in the receive buffer at offset `displs[i]`. -/
def allgatherv (sendBufs : List (List Nat)) (recvSizes displs RecvBuf : List Nat) :
    List Nat :=
  (List.range sendBufs.length).foldl
    (fun buf i =>
      placeAt buf (displs.getD i 0) ((sendBufs.getD i []).take (recvSizes.getD i 0)))
    RecvBuf

/-- The two-phase exchange (lines 44-57): `MPI_Allgather` of the send sizes,
`totalRecv`, `displs`, then `MPI_Allgatherv` into a buffer of `totalRecv` slots.
Every process obtains the same `RecvBuf`. -/
def exchange (size : Nat) (sendBufs : List (List Nat)) : List Nat :=
  let recvSizes := sendBufs.map List.length
  let totalRecv := recvSizes.foldl (fun acc n => acc + n) 0
  allgatherv sendBufs recvSizes (computeDispls size recvSizes) (List.replicate totalRecv 0)

/-- The body of `for (int v : RecvBuf)` (lines 60-68). -/
def receive (rank size level : Nat) (st : ScanState) (v : Nat) : ScanState :=
  if st.dist.getD v INF = INF then
    { st with dist := st.dist.set v (level + 1),
              NextFrontier :=
                if v % size = rank then st.NextFrontier ++ [v] else st.NextFrontier }
  else st

/-- The reduction `MPI_MIN` over the contributions of the processes, in rank order. -/
def minOver : List Nat → Nat
  | [] => INF
  | x :: rest => rest.foldl min x

/-- The collective `MPI_Allreduce(dist, globalDist, N, MPI_INT, MPI_MIN)` (lines 71-72):
slot `i` of `globalDist` is the minimum of slot `i` over all processes. -/
def allreduceMin (N : Nat) (dists : List (List Nat)) : List Nat :=
  (List.range N).map (fun i => minOver (dists.map (fun d => d.getD i INF)))

/-- One execution of the loop body up to the frontier swap (lines 29-77), run by
all processes. -/
def levelBody (size N : Nat) (graph : Graph) (level : Nat) (ws : List Worker) :
    List Worker :=
  let scanned :=
    ws.map (fun w => (w.rank, scanFrontier w.rank size level graph w.Frontier w.dist))
  let RecvBuf := exchange size (scanned.map (fun p => p.2.SendBuf))
  let received := scanned.map (fun p => (p.1, RecvBuf.foldl (receive p.1 size level) p.2))
  let globalDist := allreduceMin N (received.map (fun p => p.2.dist))
  received.map (fun p => { rank := p.1, dist := globalDist, Frontier := p.2.NextFrontier })

/-- The flag `globalHasWork` (lines 80-82): the logical OR over all processes of
`!Frontier.empty()`. -/
def globalHasWork (ws : List Worker) : Bool :=
  ws.any (fun w => !w.Frontier.isEmpty)

/-- The loop `while (true)` (lines 28-86) with a bound `fuel` on the number of
executions of the body.  Returns the final value of `level` and the final
process states, or `none` when the bound is exhausted. -/
def bfsLoop (size N : Nat) (graph : Graph) : Nat → Nat → List Worker →
    Option (Nat × List Worker)
  | 0, _, _ => none
  | fuel + 1, level, ws =>
    let ws1 := levelBody size N graph level ws
    if globalHasWork ws1 then bfsLoop size N graph fuel (level + 1) ws1
    else some (level, ws1)

/-- Lines 13-20 on one process: `dist.assign(N, INF)`, and the owner of the
source seeds its frontier and sets `dist[source] = level` with `level = 0`. -/
def initWorker (rank size N source : Nat) : Worker :=
  if rank = source % size then
    { rank := rank, dist := (List.replicate N INF).set source 0, Frontier := [source] }
  else
    { rank := rank, dist := List.replicate N INF, Frontier := [] }

/-- Lines 23-25: `MPI_Bcast` of `dist[source]` from the process `source % size`. -/
def bcastSource (size source : Nat) (ws : List Worker) : List Worker :=
  let sourceDist := ((ws.map (fun w => w.dist)).getD (source % size) []).getD source INF
  ws.map (fun w => { w with dist := w.dist.set source sourceDist })

/-- The state of the `size` processes when the level loop is entered. -/
def initState (size N source : Nat) : List Worker :=
  bcastSource size source ((List.range size).map (fun r => initWorker r size N source))

/-- The function `distributedBFS` run by `size` processes; the result holds,
for each rank, the vector `dist` handed back to `main`. -/
def distributedBFS (fuel size N source : Nat) (graph : Graph) : Option (List Worker) :=
  (bfsLoop size N graph fuel 0 (initState size N source)).map (fun p => p.2)

/-- The process states after `j` executions of the loop body. -/
def runLevels (size N source : Nat) (graph : Graph) : Nat → List Worker
  | 0 => initState size N source
  | j + 1 => levelBody size N graph j (runLevels size N source graph j)

/-! ## `main` (1.cpp lines 89-177) -/

/-- One edge record `(u, v, d)` (lines 121-128). -/
def addEdge (graph : Graph) (e : Nat × Nat × Int) : Graph :=
  if e.2.2 = 1 then
    let g1 := graph.set e.1 (graph.getD e.1 [] ++ [e.2.1])
    g1.set e.2.1 (g1.getD e.2.1 [] ++ [e.1])
  else
    graph.set e.2.1 (graph.getD e.2.1 [] ++ [e.1])

/-- Lines 119-129: `graph.resize(N)` and the edge loop. -/
def readGraph (N : Nat) (edges : List (Nat × Nat × Int)) : Graph :=
  edges.foldl addEdge (List.replicate N [])

/-- Line 136: `for (int blockedNode : blocked) graph[blockedNode].clear();`. -/
def clearBlocked (graph : Graph) (blocked : List Nat) : Graph :=
  blocked.foldl (fun g b => g.set b []) graph

/-- The adjacency structure that rank 0 builds and broadcasts (lines 118-155). -/
def loadGraph (N : Nat) (edges : List (Nat × Nat × Int)) (blocked : List Nat) : Graph :=
  clearBlocked (readGraph N edges) blocked

/-- Lines 168-170: one value per explorer, in the order of `explorers`. -/
def report (dist explorers : List Nat) : List Int :=
  explorers.map (fun u => if dist.getD u INF = INF then -1 else (dist.getD u INF : Int))

/-- The values that rank 0 writes to the output file. -/
def mainOutput (fuel size N : Nat) (edges : List (Nat × Nat × Int))
    (explorers : List Nat) (R : Nat) (blocked : List Nat) : Option (List Int) :=
  match distributedBFS fuel size N R (loadGraph N edges blocked) with
  | none => none
  | some ws =>
    match ws.find? (fun w => w.rank = 0) with
    | none => none
    | some w => some (report w.dist explorers)

/-! ## Paths -/

/-- `Walk graph s n v`: there are `n` consecutive edges leading from `s` to `v`,
where an edge `u -> v` exists when `v` occurs in `graph[u]`. -/
inductive Walk (graph : Graph) (s : Nat) : Nat → Nat → Prop
  | nil : Walk graph s 0 s
  | snoc {n u v : Nat} : Walk graph s n u → v ∈ graph.getD u [] → Walk graph s (n + 1) v

/-- `HopDist graph s v d`: a shortest path from `s` to `v` has `d` edges. -/
def HopDist (graph : Graph) (s v d : Nat) : Prop :=
  Walk graph s d v ∧ ∀ n, Walk graph s n v → d ≤ n

/-- No path leads from `s` to `v`. -/
def Unreachable (graph : Graph) (s v : Nat) : Prop :=
  ∀ n, ¬ Walk graph s n v

/-- All neighbour ids of the `N` vertices lie in `[0, N)`. -/
def ValidGraph (N : Nat) (graph : Graph) : Prop :=
  graph.length = N ∧ ∀ u, ∀ v ∈ graph.getD u [], v < N

/-! ## Predicates used by the proofs -/

/-- What the scan of a neighbour sequence `vs` has done to a process that
started the level with the vector `D`. -/
structure Scanned (r W lvl : Nat) (D vs : List Nat) (st : ScanState) : Prop where
  len : st.dist.length = D.length
  dist : ∀ v, st.dist.getD v INF =
    if D.getD v INF = INF ∧ v % W = r ∧ v ∈ vs then lvl + 1 else D.getD v INF
  next : ∀ v, v ∈ st.NextFrontier ↔ (D.getD v INF = INF ∧ v % W = r ∧ v ∈ vs)
  send : ∀ v, v ∈ st.SendBuf ↔ (D.getD v INF = INF ∧ v % W ≠ r ∧ v ∈ vs)

/-- What the processing of the received buffer `recv` has done to a process
that finished its scan in state `st1`. -/
structure Received (r W lvl : Nat) (st1 : ScanState) (recv : List Nat) (st2 : ScanState) :
    Prop where
  len : st2.dist.length = st1.dist.length
  dist : ∀ v, st2.dist.getD v INF =
    if st1.dist.getD v INF = INF ∧ v ∈ recv then lvl + 1 else st1.dist.getD v INF
  next : ∀ v, v ∈ st2.NextFrontier ↔
    (v ∈ st1.NextFrontier ∨ (st1.dist.getD v INF = INF ∧ v ∈ recv ∧ v % W = r))

/-- The process states in which every rank `r < W` holds the same vector `D`
and the frontier `F r`. -/
def mkState (W : Nat) (D : List Nat) (F : Nat → List Nat) : List Worker :=
  (List.range W).map (fun r => { rank := r, dist := D, Frontier := F r })

/-- The scan result of rank `r` in level `k`, started from `mkState W D F`. -/
def scanOf (W k : Nat) (graph : Graph) (D : List Nat) (F : Nat → List Nat) (r : Nat) :
    ScanState :=
  scanFrontier r W k graph (F r) D

/-- The buffer every rank receives in level `k`, started from `mkState W D F`. -/
def recvBufOf (W k : Nat) (graph : Graph) (D : List Nat) (F : Nat → List Nat) : List Nat :=
  exchange W ((List.range W).map (fun r => (scanOf W k graph D F r).SendBuf))

/-- The state of rank `r` after it has processed the received buffer in level `k`. -/
def recvOf (W k : Nat) (graph : Graph) (D : List Nat) (F : Nat → List Nat) (r : Nat) :
    ScanState :=
  (recvBufOf W k graph D F).foldl (receive r W k) (scanOf W k graph D F r)

/-- The state on entry to the level numbered `k`: every vertex within `k` hops
of the source `s` carries its hop distance, every other vertex carries `INF`,
and the frontier of rank `r` holds the vertices at hop distance `k` that `r` owns. -/
structure LevelInv (W N : Nat) (graph : Graph) (s k : Nat) (D : List Nat)
    (F : Nat → List Nat) : Prop where
  len : D.length = N
  near : ∀ v d, d ≤ k → HopDist graph s v d → D.getD v INF = d
  far : ∀ v, v < N → (∀ n, n ≤ k → ¬ Walk graph s n v) → D.getD v INF = INF
  front : ∀ r, r < W → ∀ v, v ∈ F r ↔ (HopDist graph s v k ∧ v % W = r)

/-- The reconciled vector at the end of level `k`, started from `mkState W D F`. -/
def nextDist (W N k : Nat) (graph : Graph) (D : List Nat) (F : Nat → List Nat) : List Nat :=
  allreduceMin N ((List.range W).map (fun r => (recvOf W k graph D F r).dist))

/-- The frontier of rank `r` at the end of level `k`, started from `mkState W D F`. -/
def nextFront (W k : Nat) (graph : Graph) (D : List Nat) (F : Nat → List Nat) (r : Nat) :
    List Nat :=
  (recvOf W k graph D F r).NextFrontier

/-- The vector `D` is the table of hop distances from `s`: the slot of a vertex
holds the number of edges of a shortest path from `s`, or `INF` when there is
no path. -/
def DistSpec (N : Nat) (graph : Graph) (s : Nat) (D : List Nat) : Prop :=
  D.length = N ∧ ∀ v, v < N →
    (∀ d, HopDist graph s v d → D.getD v INF = d) ∧
    (Unreachable graph s v → D.getD v INF = INF)

/-- The neighbours that the record `e = (u, v, d)` appends to the list of vertex `x`. -/
def contrib (e : Nat × Nat × Int) (x : Nat) : List Nat :=
  if e.2.2 = 1 then
    (if x = e.1 then [e.2.1] else []) ++ (if x = e.2.1 then [e.1] else [])
  else
    (if x = e.2.1 then [e.1] else [])

/-! ## The specification's reading of the input -/

/-- The edge insertion as the specification words it: a record with flag `0`
adds `v` to the neighbours of `u` and `u` to the neighbours of `v`; any other
flag adds only `v` to the neighbours of `u`. -/
def specAddEdge (graph : Graph) (e : Nat × Nat × Int) : Graph :=
  if e.2.2 = 0 then
    let g1 := graph.set e.1 (graph.getD e.1 [] ++ [e.2.1])
    g1.set e.2.1 (g1.getD e.2.1 [] ++ [e.1])
  else
    graph.set e.1 (graph.getD e.1 [] ++ [e.2.1])

/-- The adjacency structure as the specification words it. -/
def specReadGraph (N : Nat) (edges : List (Nat × Nat × Int)) : Graph :=
  edges.foldl specAddEdge (List.replicate N [])

/-- Adjacency in the undirected graph formed by the records: some record joins
`a` and `b`, in either order. -/
def UAdj (edges : List (Nat × Nat × Int)) (a b : Nat) : Prop :=
  ∃ e ∈ edges, (e.1 = a ∧ e.2.1 = b) ∨ (e.1 = b ∧ e.2.1 = a)

/-- `UWalk edges s n v`: `n` consecutive edges of the undirected graph formed
by the records lead from `s` to `v`. -/
inductive UWalk (edges : List (Nat × Nat × Int)) (s : Nat) : Nat → Nat → Prop
  | nil : UWalk edges s 0 s
  | snoc {n u v : Nat} : UWalk edges s n u → UAdj edges u v → UWalk edges s (n + 1) v

/-- `UHopDist edges s v d`: in the undirected graph formed by the records a
shortest path from `s` to `v` has `d` edges. -/
def UHopDist (edges : List (Nat × Nat × Int)) (s v d : Nat) : Prop :=
  UWalk edges s d v ∧ ∀ n, UWalk edges s n v → d ≤ n

/-- The buffer that every process receives in one execution of the loop body
(lines 29-57), started from the states `ws`. -/
def recvBufAll (size : Nat) (graph : Graph) (level : Nat) (ws : List Worker) : List Nat :=
  exchange size
    (ws.map (fun w => (scanFrontier w.rank size level graph w.Frontier w.dist).SendBuf))

/-- The state of the process `w` just before the reduction of `dist` (lines
29-68): its scan followed by the processing of the received buffer `RecvBuf`. -/
def localLevel (size : Nat) (graph : Graph) (level : Nat) (RecvBuf : List Nat) (w : Worker) :
    ScanState :=
  RecvBuf.foldl (receive w.rank size level)
    (scanFrontier w.rank size level graph w.Frontier w.dist)

/-- The vectors `dist` of all processes just before the reduction, in rank order. -/
def preReconcile (size : Nat) (graph : Graph) (level : Nat) (ws : List Worker) :
    List (List Nat) :=
  ws.map (fun w => (localLevel size graph level (recvBufAll size graph level ws) w).dist)

/-- The vectors `dist` of the processes between `dist.assign(N, INF)` with the
seeding of the source (lines 13-20) and the broadcast (lines 23-25). -/
def preBroadcast (size N source : Nat) : List (List Nat) :=
  (List.range size).map (fun r => (initWorker r size N source).dist)

/-- A buffer with every repeated occurrence of a vertex removed, the first
occurrence kept. -/
def keepFirst : List Nat → List Nat
  | [] => []
  | v :: vs => v :: (keepFirst vs).filter (fun x => x ≠ v)

end MazeEscape

/-!
# Bouncing balls: one grid step per time unit

A shallow embedding of `Assignment1/P2-BouncingBalls/2.cpp`.

A ball is the triple `array<int, 3>` of its row `x`, its column `y` and its
direction `d`.  Rows, columns, directions and counts are natural numbers: the
input positions lie in the grid and the directions are the four constants, and
for such values the `int` expressions `(y - 1 + M) % M` and `(x - 1 + N) % N`
of the source equal `(y + M - 1) % M` and `(x + N - 1) % N`.  The processes are
kept as a list, ordered by rank, of their vectors `pos`.  The variable-length
exchange of lines 35-47 is the protocol of the maze program and is embedded by
the same functions.
-/

namespace BouncingBalls

/-! ## Directions (2.cpp lines 5-15) -/

/-- The constant `L = 0`. -/
def L : Nat := 0

/-- The constant `R = 1`. -/
def R : Nat := 1

/-- The constant `U = 2`. -/
def U : Nat := 2

/-- The constant `D = 3`. -/
def D : Nat := 3

/-- The function `rotateBy90` (lines 9-11). -/
def rotateBy90 (d : Nat) : Nat :=
  if d = L then U else if d = R then D else if d = U then R else L

/-- The function `reverseDirection` (lines 13-15). -/
def reverseDirection (d : Nat) : Nat :=
  if d = L then R else if d = R then L else if d = U then D else U

/-- A ball `{x, y, d}`. -/
abbrev Ball := Nat × Nat × Nat

/-- The call `pos.resize(n)`. -/
def resize (pos : List Ball) (n : Nat) : List Ball :=
  pos.take n ++ List.replicate (n - pos.length) (0, 0, 0)

/-- The message `flat_data` for the balls `start .. start + count - 1` (lines 116-121). -/
def flatChunk (pos : List Ball) (start count : Nat) : List Nat :=
  (List.range count).flatMap
    (fun j => [(pos.getD (start + j) (0, 0, 0)).1, (pos.getD (start + j) (0, 0, 0)).2.1,
      (pos.getD (start + j) (0, 0, 0)).2.2])

/-- The balls a receiver rebuilds from `flat_data` (lines 139-144). -/
def unflatten (flat_data : List Nat) (count : Nat) : List Ball :=
  (List.range count).map
    (fun i => (flat_data.getD (i * 3) 0, flat_data.getD (i * 3 + 1) 0,
      flat_data.getD (i * 3 + 2) 0))

/-- The vector `pos` of the process `rank` after the distribution of the `K`
balls read by rank 0 (lines 109-146).  The `int count = end - start` of the
source is sent as `0` when it is not positive; the truncated subtraction
yields `0` in exactly these cases. -/
def distribute (size : Nat) (pos : List Ball) (rank : Nat) : List Ball :=
  let K := pos.length
  let chunk_size := (K + size - 1) / size
  if rank = 0 then resize pos chunk_size
  else
    let start := rank * chunk_size
    let end_ := min ((rank + 1) * chunk_size) K
    let count := end_ - start
    if count > 0 then unflatten (flatChunk pos start count) count else []

/-! ## Predicates used by the proofs -/

/-- The four cells and directions from which a ball reaches the cell `(X, Y)`. -/
def arrivals (N M X Y : Nat) : List Ball :=
  [((X + N - 1) % N, Y, D), ((X + 1) % N, Y, U), (X, (Y + M - 1) % M, R), (X, (Y + 1) % M, L)]

end BouncingBalls

/-! # Lemmas and theorems: maze escape -/

namespace MazeEscape

/-! ## Vector lemmas -/

theorem getD_set {α : Type} (l : List α) (i j : Nat) (a d : α) :
    (l.set i a).getD j d = if i = j ∧ i < l.length then a else l.getD j d := by
  simp only [List.getD_eq_getElem?_getD, List.getElem?_set]
  by_cases hij : i = j
  · subst hij
    by_cases hlt : i < l.length
    · simp [-List.getD_eq_getElem?_getD, hlt]
    · simp [-List.getD_eq_getElem?_getD, hlt, List.getElem?_eq_none (Nat.le_of_not_lt hlt)]
  · simp [-List.getD_eq_getElem?_getD, hij]

theorem getD_replicate {α : Type} (n i : Nat) (a d : α) :
    (List.replicate n a).getD i d = if i < n then a else d := by
  simp only [List.getD_eq_getElem?_getD, List.getElem?_replicate]
  split_ifs <;> rfl

/-! ## The frontier scan -/

theorem scanned_nil (r W lvl : Nat) (D : List Nat) :
    Scanned r W lvl D [] { dist := D, NextFrontier := [], SendBuf := [] } := by
  constructor <;> simp [-List.getD_eq_getElem?_getD]

theorem scanned_visit {r W lvl : Nat} {D vs : List Nat} {st : ScanState} (a : Nat)
    (ha : a < D.length) (h : Scanned r W lvl D vs st) :
    Scanned r W lvl D (vs ++ [a]) (visit r W lvl st a) := by
  have hda := h.dist a
  by_cases hst : st.dist.getD a INF = INF
  · have hDa : D.getD a INF = INF := by
      rw [hst] at hda
      split_ifs at hda with hc
      · exact hc.1
      · exact hda.symm
    by_cases hown : a % W = r
    · have hv : visit r W lvl st a =
          { st with dist := st.dist.set a (lvl + 1),
                    NextFrontier := st.NextFrontier ++ [a] } := by
        simp [-List.getD_eq_getElem?_getD, visit, hst, hown]
      rw [hv]
      constructor
      · simp [-List.getD_eq_getElem?_getD, h.len]
      · intro v
        simp only [getD_set, h.len]
        by_cases hva : a = v
        · subst hva
          simp [-List.getD_eq_getElem?_getD, ha, hDa, hown]
        · have hva2 : ¬ v = a := fun e => hva e.symm
          simp [-List.getD_eq_getElem?_getD, hva, hva2, h.dist v]
      · intro v
        simp only [List.mem_append, List.mem_singleton, h.next v]
        by_cases hva : v = a
        · subst hva
          simp [-List.getD_eq_getElem?_getD, hDa, hown]
        · simp [-List.getD_eq_getElem?_getD, hva]
      · intro v
        simp only [List.mem_append, List.mem_singleton, h.send v]
        by_cases hva : v = a
        · subst hva
          simp [-List.getD_eq_getElem?_getD, hown]
        · simp [-List.getD_eq_getElem?_getD, hva]
    · have hv : visit r W lvl st a = { st with SendBuf := st.SendBuf ++ [a] } := by
        simp [-List.getD_eq_getElem?_getD, visit, hst, hown]
      rw [hv]
      constructor
      · exact h.len
      · intro v
        simp only [List.mem_append, List.mem_singleton, h.dist v]
        by_cases hva : v = a
        · subst hva
          simp [-List.getD_eq_getElem?_getD, hown]
        · simp [-List.getD_eq_getElem?_getD, hva]
      · intro v
        simp only [List.mem_append, List.mem_singleton, h.next v]
        by_cases hva : v = a
        · subst hva
          simp [-List.getD_eq_getElem?_getD, hown]
        · simp [-List.getD_eq_getElem?_getD, hva]
      · intro v
        simp only [List.mem_append, List.mem_singleton, h.send v]
        by_cases hva : v = a
        · subst hva
          simp [-List.getD_eq_getElem?_getD, hDa, hown]
        · simp [-List.getD_eq_getElem?_getD, hva]
  · have hv : visit r W lvl st a = st := by
      simp [-List.getD_eq_getElem?_getD, visit, hst]
    rw [hv]
    -- `a` was written earlier in this scan: it is owned and occurs in `vs`
    have hin : D.getD a INF = INF → (a % W = r ∧ a ∈ vs) := by
      intro hD
      by_contra hc
      have : ¬ (D.getD a INF = INF ∧ a % W = r ∧ a ∈ vs) := fun c => hc c.2
      rw [if_neg this] at hda
      exact hst (hda.trans hD)
    constructor
    · exact h.len
    · intro v
      simp only [List.mem_append, List.mem_singleton, h.dist v]
      by_cases hva : v = a
      · subst hva
        by_cases hD : D.getD v INF = INF
        · simp [-List.getD_eq_getElem?_getD, hD, (hin hD).1, (hin hD).2]
        · simp [-List.getD_eq_getElem?_getD, hD]
      · simp [-List.getD_eq_getElem?_getD, hva]
    · intro v
      simp only [List.mem_append, List.mem_singleton, h.next v]
      by_cases hva : v = a
      · subst hva
        by_cases hD : D.getD v INF = INF
        · simp [-List.getD_eq_getElem?_getD, hD, (hin hD).1, (hin hD).2]
        · simp [-List.getD_eq_getElem?_getD, hD]
      · simp [-List.getD_eq_getElem?_getD, hva]
    · intro v
      simp only [List.mem_append, List.mem_singleton, h.send v]
      by_cases hva : v = a
      · subst hva
        by_cases hD : D.getD v INF = INF
        · simp [-List.getD_eq_getElem?_getD, hD, (hin hD).1, (hin hD).2]
        · simp [-List.getD_eq_getElem?_getD, hD]
      · simp [-List.getD_eq_getElem?_getD, hva]

theorem scanned_foldl {r W lvl : Nat} {D : List Nat} (vs : List Nat)
    (hvs : ∀ v ∈ vs, v < D.length) :
    Scanned r W lvl D vs
      (vs.foldl (visit r W lvl) { dist := D, NextFrontier := [], SendBuf := [] }) := by
  induction vs using List.reverseRecOn with
  | nil => exact scanned_nil r W lvl D
  | append_singleton l a ih =>
    rw [List.foldl_append]
    exact scanned_visit a (hvs a (by simp)) (ih (fun v hv => hvs v (by simp [-List.getD_eq_getElem?_getD, hv])))

theorem scanFrontier_eq_foldl (r W lvl : Nat) (graph : Graph) (F D : List Nat) :
    scanFrontier r W lvl graph F D =
      (F.flatMap (fun u => graph.getD u [])).foldl (visit r W lvl)
        { dist := D, NextFrontier := [], SendBuf := [] } := by
  unfold scanFrontier
  generalize ({ dist := D, NextFrontier := [], SendBuf := [] } : ScanState) = st
  induction F generalizing st with
  | nil => rfl
  | cons u F ih => simp [-List.getD_eq_getElem?_getD, List.flatMap_cons, List.foldl_append, ih]

/-! ## Processing the received buffer -/

theorem received_nil (r W lvl : Nat) (st : ScanState) : Received r W lvl st [] st := by
  constructor <;> simp [-List.getD_eq_getElem?_getD]

theorem received_step {r W lvl : Nat} {st1 st2 : ScanState} {recv : List Nat} (a : Nat)
    (ha : a < st1.dist.length) (h : Received r W lvl st1 recv st2) :
    Received r W lvl st1 (recv ++ [a]) (receive r W lvl st2 a) := by
  have hda := h.dist a
  by_cases hst : st2.dist.getD a INF = INF
  · have h1a : st1.dist.getD a INF = INF := by
      rw [hst] at hda
      split_ifs at hda with hc
      · exact hc.1
      · exact hda.symm
    have hv : receive r W lvl st2 a =
        { st2 with dist := st2.dist.set a (lvl + 1),
                   NextFrontier :=
                     if a % W = r then st2.NextFrontier ++ [a] else st2.NextFrontier } := by
      simp [-List.getD_eq_getElem?_getD, receive, hst]
    rw [hv]
    constructor
    · simp [-List.getD_eq_getElem?_getD, h.len]
    · intro v
      simp only [getD_set, h.len]
      by_cases hva : a = v
      · subst hva
        simp [-List.getD_eq_getElem?_getD, ha, h1a]
      · have hva2 : ¬ v = a := fun e => hva e.symm
        simp [-List.getD_eq_getElem?_getD, hva, hva2, h.dist v]
    · intro v
      by_cases hown : a % W = r
      · simp only [hown, if_true, List.mem_append, List.mem_singleton, h.next v]
        by_cases hva : v = a
        · subst hva
          simp [-List.getD_eq_getElem?_getD, h1a, hown]
        · simp [-List.getD_eq_getElem?_getD, hva]
      · simp only [hown, if_false, List.mem_append, List.mem_singleton, h.next v]
        by_cases hva : v = a
        · subst hva
          simp [-List.getD_eq_getElem?_getD, hown]
        · simp [-List.getD_eq_getElem?_getD, hva]
  · have hv : receive r W lvl st2 a = st2 := by
      simp [-List.getD_eq_getElem?_getD, receive, hst]
    rw [hv]
    have hin : st1.dist.getD a INF = INF → a ∈ recv := by
      intro h1
      by_contra hc
      have : ¬ (st1.dist.getD a INF = INF ∧ a ∈ recv) := fun c => hc c.2
      rw [if_neg this] at hda
      exact hst (hda.trans h1)
    constructor
    · exact h.len
    · intro v
      simp only [List.mem_append, List.mem_singleton, h.dist v]
      by_cases hva : v = a
      · subst hva
        by_cases h1 : st1.dist.getD v INF = INF
        · simp [-List.getD_eq_getElem?_getD, h1, hin h1]
        · simp [-List.getD_eq_getElem?_getD, h1]
      · simp [-List.getD_eq_getElem?_getD, hva]
    · intro v
      simp only [List.mem_append, List.mem_singleton, h.next v]
      by_cases hva : v = a
      · subst hva
        by_cases h1 : st1.dist.getD v INF = INF
        · simp [-List.getD_eq_getElem?_getD, h1, hin h1]
        · simp [-List.getD_eq_getElem?_getD, h1]
      · simp [-List.getD_eq_getElem?_getD, hva]

theorem received_foldl {r W lvl : Nat} (st1 : ScanState) (recv : List Nat)
    (hrecv : ∀ v ∈ recv, v < st1.dist.length) :
    Received r W lvl st1 recv (recv.foldl (receive r W lvl) st1) := by
  induction recv using List.reverseRecOn with
  | nil => exact received_nil r W lvl st1
  | append_singleton l a ih =>
    rw [List.foldl_append]
    exact received_step a (hrecv a (by simp)) (ih (fun v hv => hrecv v (by simp [hv])))

/-! ## The minimum reduction -/

theorem foldl_min_le_init (rest : List Nat) (x : Nat) : rest.foldl min x ≤ x := by
  induction rest generalizing x with
  | nil => exact Nat.le_refl x
  | cons y rest ih => exact Nat.le_trans (ih (min x y)) (Nat.min_le_left x y)

theorem foldl_min_le_mem (rest : List Nat) (x y : Nat) (hy : y ∈ rest) :
    rest.foldl min x ≤ y := by
  induction rest generalizing x with
  | nil => cases hy
  | cons z rest ih =>
    rcases List.mem_cons.mp hy with rfl | hy2
    · exact Nat.le_trans (foldl_min_le_init rest (min x y)) (Nat.min_le_right x y)
    · exact ih (min x z) hy2

theorem foldl_min_mem (rest : List Nat) (x : Nat) :
    rest.foldl min x = x ∨ rest.foldl min x ∈ rest := by
  induction rest generalizing x with
  | nil => exact Or.inl rfl
  | cons y rest ih =>
    rcases ih (min x y) with h | h
    · rcases Nat.le_total x y with hxy | hxy
      · left
        simpa [Nat.min_eq_left hxy] using h
      · right
        simp only [List.foldl_cons, List.mem_cons]
        left
        simpa [Nat.min_eq_right hxy] using h
    · right
      exact List.mem_cons_of_mem y h

theorem minOver_le (xs : List Nat) (y : Nat) (hy : y ∈ xs) : minOver xs ≤ y := by
  cases xs with
  | nil => cases hy
  | cons x rest =>
    rcases List.mem_cons.mp hy with rfl | hy2
    · exact foldl_min_le_init rest y
    · exact foldl_min_le_mem rest x y hy2

theorem minOver_mem (xs : List Nat) (hne : xs ≠ []) : minOver xs ∈ xs := by
  cases xs with
  | nil => exact absurd rfl hne
  | cons x rest =>
    rcases foldl_min_mem rest x with h | h
    · exact List.mem_cons.mpr (Or.inl h)
    · exact List.mem_cons_of_mem x h

/-- If every process holds `c` the reduction yields `c`. -/
theorem minOver_const (xs : List Nat) (c : Nat) (hne : xs ≠ [])
    (h : ∀ x ∈ xs, x = c) : minOver xs = c :=
  h _ (minOver_mem xs hne)

/-- If every process holds `a` or `INF`, and one of them holds `a`, the
reduction yields `a`. -/
theorem minOver_pick (xs : List Nat) (a : Nat) (ha : a ≤ INF) (hmem : a ∈ xs)
    (h : ∀ x ∈ xs, x = a ∨ x = INF) : minOver xs = a := by
  have hle := minOver_le xs a hmem
  have hne : xs ≠ [] := List.ne_nil_of_mem hmem
  rcases h _ (minOver_mem xs hne) with h1 | h1
  · exact h1
  · omega

theorem length_allreduceMin (N : Nat) (dists : List (List Nat)) :
    (allreduceMin N dists).length = N := by
  simp [allreduceMin]

theorem getD_allreduceMin (N : Nat) (dists : List (List Nat)) (i : Nat) (hi : i < N) :
    (allreduceMin N dists).getD i INF = minOver (dists.map (fun d => d.getD i INF)) := by
  simp [-List.getD_eq_getElem?_getD, allreduceMin, List.getD_eq_getElem?_getD (List.map _ _),
    List.getElem?_map, List.getElem?_range hi]

/-! ## The variable-length exchange -/

theorem foldl_add_eq_sum (xs : List Nat) (a : Nat) :
    xs.foldl (fun acc n => acc + n) a = a + xs.sum := by
  induction xs generalizing a with
  | nil => simp
  | cons x xs ih => simp [ih, Nat.add_assoc]

theorem sum_take_succ_getD (xs : List Nat) (m : Nat) :
    (xs.take (m + 1)).sum = (xs.take m).sum + xs.getD m 0 := by
  induction xs generalizing m with
  | nil => simp
  | cons x xs ih =>
    cases m with
    | zero => simp
    | succ m =>
      simp only [List.take_succ_cons, List.sum_cons, List.getD_cons_succ]
      rw [ih m]
      omega

/-- After the first `m` iterations of the offset loop the slots `0 .. m` hold
the prefix sums of `recvSizes`. -/
theorem computeDispls_upto (size : Nat) (recvSizes : List Nat) (m : Nat)
    (hm : m + 1 ≤ size) :
    ((List.range m).foldl
        (fun displs j => displs.set (j + 1) (displs.getD j 0 + recvSizes.getD j 0))
        (List.replicate size 0)).length = size ∧
    ∀ i, i ≤ m →
      ((List.range m).foldl
        (fun displs j => displs.set (j + 1) (displs.getD j 0 + recvSizes.getD j 0))
        (List.replicate size 0)).getD i 0 = (recvSizes.take i).sum := by
  induction m with
  | zero =>
    refine ⟨by simp, ?_⟩
    intro i hi
    have : i = 0 := by omega
    subst this
    simp [-List.getD_eq_getElem?_getD, getD_replicate]
  | succ m ih =>
    obtain ⟨hlen, hval⟩ := ih (by omega)
    rw [List.range_succ, List.foldl_append]
    simp only [List.foldl_cons, List.foldl_nil]
    refine ⟨by rw [List.length_set]; exact hlen, ?_⟩
    intro i hi
    rw [getD_set, hlen]
    by_cases him : m + 1 = i
    · subst him
      have hlt : m + 1 < size := by omega
      simp only [hlt, and_self, if_true]
      rw [hval m (Nat.le_refl m), sum_take_succ_getD]
    · have : ¬ (m + 1 = i ∧ m + 1 < size) := fun c => him c.1
      rw [if_neg this]
      exact hval i (by omega)

theorem getD_computeDispls (size : Nat) (recvSizes : List Nat) (i : Nat) (hi : i < size) :
    (computeDispls size recvSizes).getD i 0 = (recvSizes.take i).sum := by
  unfold computeDispls
  have hm : (size - 1) + 1 ≤ size := by omega
  exact (computeDispls_upto size recvSizes (size - 1) hm).2 i (by omega)

theorem length_flatten_take (sendBufs : List (List Nat)) (m : Nat) :
    (sendBufs.take m).flatten.length = ((sendBufs.map List.length).take m).sum := by
  rw [List.length_flatten, List.map_take]

theorem flatten_take_succ (sendBufs : List (List Nat)) (m : Nat) :
    (sendBufs.take (m + 1)).flatten = (sendBufs.take m).flatten ++ sendBufs.getD m [] := by
  induction sendBufs generalizing m with
  | nil => simp
  | cons x xs ih =>
    cases m with
    | zero => simp
    | succ m =>
      simp only [List.take_succ_cons, List.flatten_cons, List.getD_cons_succ]
      rw [ih m, List.append_assoc]

/-- After the blocks of the first `m` senders have been placed, the receive
buffer starts with their concatenation. -/
theorem allgatherv_upto (sendBufs : List (List Nat)) (displs : List Nat) (total m : Nat)
    (hm : m ≤ sendBufs.length)
    (hd : ∀ i, i < sendBufs.length →
      displs.getD i 0 = ((sendBufs.map List.length).take i).sum) :
    (List.range m).foldl
      (fun buf i =>
        placeAt buf (displs.getD i 0)
          ((sendBufs.getD i []).take ((sendBufs.map List.length).getD i 0)))
      (List.replicate total 0) =
    (sendBufs.take m).flatten ++ List.replicate (total - (sendBufs.take m).flatten.length) 0 := by
  induction m with
  | zero => simp
  | succ m ih =>
    rw [List.range_succ, List.foldl_append, ih (by omega)]
    simp only [List.foldl_cons, List.foldl_nil]
    have hlt : m < sendBufs.length := by omega
    have hsz : (sendBufs.map List.length).getD m 0 = (sendBufs.getD m []).length := by
      have := List.getD_map sendBufs [] List.length (n := m)
      simpa [-List.getD_eq_getElem?_getD] using this
    rw [hsz, List.take_length, hd m hlt, ← length_flatten_take, flatten_take_succ]
    unfold placeAt
    rw [List.take_left, List.append_assoc, List.append_assoc]
    congr 1
    congr 1
    rw [List.drop_append_eq_append_drop]
    simp [-List.getD_eq_getElem?_getD, List.drop_replicate, Nat.sub_sub]

/-- Every process receives the concatenation of the send buffers in rank order. -/
theorem exchange_eq_flatten (sendBufs : List (List Nat)) :
    exchange sendBufs.length sendBufs = sendBufs.flatten := by
  unfold exchange allgatherv
  simp only []
  rw [allgatherv_upto sendBufs _ _ sendBufs.length (Nat.le_refl _)]
  · rw [List.take_length, foldl_add_eq_sum, List.length_flatten]
    simp
  · intro i hi
    exact getD_computeDispls _ _ i hi

/-! ## Paths and hop distance -/

theorem walk_lt {N s : Nat} {graph : Graph} (hg : ValidGraph N graph) (hs : s < N)
    {n v : Nat} (h : Walk graph s n v) : v < N := by
  cases h with
  | nil => exact hs
  | snoc _ he => exact hg.2 _ _ he

theorem walk_zero {graph : Graph} {s v : Nat} (h : Walk graph s 0 v) : v = s := by
  cases h
  rfl

theorem hopDist_source (graph : Graph) (s : Nat) : HopDist graph s s 0 :=
  ⟨Walk.nil, fun n _ => Nat.zero_le n⟩

theorem hopDist_unique {graph : Graph} {s v d1 d2 : Nat}
    (h1 : HopDist graph s v d1) (h2 : HopDist graph s v d2) : d1 = d2 :=
  Nat.le_antisymm (h1.2 _ h2.1) (h2.2 _ h1.1)

theorem hopDist_of_walk {graph : Graph} {s v n : Nat} (h : Walk graph s n v) :
    ∃ d, d ≤ n ∧ HopDist graph s v d := by
  classical
  have hex : ∃ m, Walk graph s m v := ⟨n, h⟩
  refine ⟨Nat.find hex, Nat.find_min' hex h, Nat.find_spec hex, ?_⟩
  intro m hm
  exact Nat.find_min' hex hm

/-- A vertex at hop distance `k + 1` has an in-neighbour at hop distance `k`. -/
theorem hopDist_pred {graph : Graph} {s v k : Nat} (h : HopDist graph s v (k + 1)) :
    ∃ u, HopDist graph s u k ∧ v ∈ graph.getD u [] := by
  obtain ⟨hw, hmin⟩ := h
  cases hw with
  | snoc hu he =>
    refine ⟨_, ⟨hu, ?_⟩, he⟩
    intro n hn
    have := hmin (n + 1) (Walk.snoc hn he)
    omega

/-- A neighbour of a vertex at hop distance `k` that is not within `k` hops is
at hop distance `k + 1`. -/
theorem hopDist_succ {graph : Graph} {s u v k : Nat} (hu : HopDist graph s u k)
    (he : v ∈ graph.getD u []) (hnew : ∀ n, n ≤ k → ¬ Walk graph s n v) :
    HopDist graph s v (k + 1) := by
  refine ⟨Walk.snoc hu.1 he, ?_⟩
  intro n hn
  by_contra hc
  exact hnew n (by omega) hn

/-- While level `k` is inhabited, at least `k + 1` vertices lie within `k` hops. -/
theorem within_card {N s : Nat} {graph : Graph} (hg : ValidGraph N graph) (hs : s < N)
    (k : Nat) (hk : ∃ v, HopDist graph s v k) :
    ∃ S : Finset Nat, (∀ x, x ∈ S ↔ (x < N ∧ ∃ n, n ≤ k ∧ Walk graph s n x)) ∧
      k + 1 ≤ S.card := by
  classical
  induction k with
  | zero =>
    refine ⟨(Finset.range N).filter (fun v => ∃ n, n ≤ 0 ∧ Walk graph s n v), ?_, ?_⟩
    · intro x
      simp only [Finset.mem_filter, Finset.mem_range]
    · have hmem : s ∈ (Finset.range N).filter (fun v => ∃ n, n ≤ 0 ∧ Walk graph s n v) := by
        simp only [Finset.mem_filter, Finset.mem_range]
        exact ⟨hs, 0, Nat.le_refl 0, Walk.nil⟩
      exact Finset.card_pos.mpr ⟨s, hmem⟩
  | succ k ih =>
    obtain ⟨v, hv⟩ := hk
    obtain ⟨u, hu, _⟩ := hopDist_pred hv
    obtain ⟨S, hS, h1⟩ := ih ⟨u, hu⟩
    have hvN : v < N := walk_lt hg hs hv.1
    have hnot : v ∉ S := by
      intro hc
      obtain ⟨_, n, hn, hw⟩ := (hS v).mp hc
      have := hv.2 n hw
      omega
    refine ⟨(Finset.range N).filter (fun v => ∃ n, n ≤ k + 1 ∧ Walk graph s n v), ?_, ?_⟩
    · intro x
      simp only [Finset.mem_filter, Finset.mem_range]
    · have hsub : insert v S ⊆
          (Finset.range N).filter (fun v => ∃ n, n ≤ k + 1 ∧ Walk graph s n v) := by
        intro x hx
        simp only [Finset.mem_filter, Finset.mem_range]
        rcases Finset.mem_insert.mp hx with rfl | hx
        · exact ⟨hvN, k + 1, Nat.le_refl _, hv.1⟩
        · obtain ⟨hxN, n, hn, hw⟩ := (hS x).mp hx
          exact ⟨hxN, n, by omega, hw⟩
      have h2 := Finset.card_le_card hsub
      rw [Finset.card_insert_of_not_mem hnot] at h2
      omega

/-- Hop distances are smaller than the number of vertices. -/
theorem hopDist_lt {N s : Nat} {graph : Graph} (hg : ValidGraph N graph) (hs : s < N)
    {v k : Nat} (h : HopDist graph s v k) : k < N := by
  obtain ⟨S, hS, h1⟩ := within_card hg hs k ⟨v, h⟩
  have h2 : S ⊆ Finset.range N := by
    intro x hx
    exact Finset.mem_range.mpr ((hS x).mp hx).1
  have h3 := Finset.card_le_card h2
  rw [Finset.card_range] at h3
  omega

/-! ## One level -/

theorem levelBody_mkState (W N k : Nat) (graph : Graph) (D : List Nat) (F : Nat → List Nat) :
    levelBody W N graph k (mkState W D F) =
      mkState W (allreduceMin N ((List.range W).map (fun r => (recvOf W k graph D F r).dist)))
        (fun r => (recvOf W k graph D F r).NextFrontier) := by
  simp only [levelBody, mkState, List.map_map, Function.comp_def, recvOf, recvBufOf, scanOf]

theorem recvBufOf_eq (W k : Nat) (graph : Graph) (D : List Nat) (F : Nat → List Nat) :
    recvBufOf W k graph D F =
      ((List.range W).map (fun r => (scanOf W k graph D F r).SendBuf)).flatten := by
  unfold recvBufOf
  have h := exchange_eq_flatten ((List.range W).map (fun r => (scanOf W k graph D F r).SendBuf))
  simpa using h

theorem mem_recvBufOf (W k : Nat) (graph : Graph) (D : List Nat) (F : Nat → List Nat) (v : Nat) :
    v ∈ recvBufOf W k graph D F ↔ ∃ r, r < W ∧ v ∈ (scanOf W k graph D F r).SendBuf := by
  rw [recvBufOf_eq]
  simp only [List.mem_flatten, List.mem_map, List.mem_range]
  constructor
  · rintro ⟨l, ⟨r, hr, rfl⟩, hv⟩
    exact ⟨r, hr, hv⟩
  · rintro ⟨r, hr, hv⟩
    exact ⟨_, ⟨r, hr, rfl⟩, hv⟩

/-- A slot that still holds `INF` on entry to level `k` belongs to a vertex
that is not within `k` hops. -/
theorem inv_inf_far {W N s k : Nat} {graph : Graph} {D : List Nat} {F : Nat → List Nat}
    (hg : ValidGraph N graph) (hs : s < N) (hN : N ≤ INF)
    (h : LevelInv W N graph s k D F) {v : Nat} (hv : D.getD v INF = INF) :
    ∀ n, n ≤ k → ¬ Walk graph s n v := by
  intro n hn hw
  obtain ⟨d, hd, hd2⟩ := hopDist_of_walk hw
  have h1 := h.near v d (by omega) hd2
  have h2 := hopDist_lt hg hs hd2
  omega

theorem mem_nbrs {W N s k : Nat} {graph : Graph} {D : List Nat} {F : Nat → List Nat}
    (h : LevelInv W N graph s k D F) {r : Nat} (hr : r < W) (v : Nat) :
    v ∈ (F r).flatMap (fun u => graph.getD u []) ↔
      ∃ u, HopDist graph s u k ∧ u % W = r ∧ v ∈ graph.getD u [] := by
  simp only [List.mem_flatMap, h.front r hr]
  constructor
  · rintro ⟨u, ⟨hu, hur⟩, hv⟩
    exact ⟨u, hu, hur, hv⟩
  · rintro ⟨u, hu, hur, hv⟩
    exact ⟨u, ⟨hu, hur⟩, hv⟩

theorem scanOf_spec {W N s k : Nat} {graph : Graph} {D : List Nat} {F : Nat → List Nat}
    (hg : ValidGraph N graph) (h : LevelInv W N graph s k D F) (r : Nat) :
    Scanned r W k D ((F r).flatMap (fun u => graph.getD u [])) (scanOf W k graph D F r) := by
  unfold scanOf
  rw [scanFrontier_eq_foldl]
  apply scanned_foldl
  intro v hv
  obtain ⟨u, _, hu⟩ := List.mem_flatMap.mp hv
  rw [h.len]
  exact hg.2 u v hu

theorem recvBufOf_lt {W N s k : Nat} {graph : Graph} {D : List Nat} {F : Nat → List Nat}
    (hg : ValidGraph N graph) (h : LevelInv W N graph s k D F) (v : Nat)
    (hv : v ∈ recvBufOf W k graph D F) : v < N := by
  obtain ⟨r, _, hr⟩ := (mem_recvBufOf W k graph D F v).mp hv
  have h1 := ((scanOf_spec hg h r).send v).mp hr
  obtain ⟨u, _, hu⟩ := List.mem_flatMap.mp h1.2.2
  exact hg.2 u v hu

theorem recvOf_spec {W N s k : Nat} {graph : Graph} {D : List Nat} {F : Nat → List Nat}
    (hg : ValidGraph N graph) (h : LevelInv W N graph s k D F) (r : Nat) :
    Received r W k (scanOf W k graph D F r) (recvBufOf W k graph D F)
      (recvOf W k graph D F r) := by
  unfold recvOf
  apply received_foldl
  intro v hv
  rw [(scanOf_spec hg h r).len, h.len]
  exact recvBufOf_lt hg h v hv

/-- A finite slot is left alone by every process during the level. -/
theorem recvOf_dist_old {W N s k : Nat} {graph : Graph} {D : List Nat} {F : Nat → List Nat}
    (hg : ValidGraph N graph) (h : LevelInv W N graph s k D F) (r v : Nat)
    (hv : D.getD v INF ≠ INF) :
    (recvOf W k graph D F r).dist.getD v INF = D.getD v INF := by
  have h1 := (scanOf_spec hg h r).dist v
  have hc : ¬ (D.getD v INF = INF ∧ v % W = r ∧
      v ∈ (F r).flatMap (fun u => graph.getD u [])) := fun c => hv c.1
  rw [if_neg hc] at h1
  have h2 := (recvOf_spec hg h r).dist v
  have hc2 : ¬ ((scanOf W k graph D F r).dist.getD v INF = INF ∧
      v ∈ recvBufOf W k graph D F) := fun c => hv (h1 ▸ c.1)
  rw [if_neg hc2, h1] at h2
  exact h2

/-- A slot holding `INF` ends the level, before reconciliation, with `k + 1` or `INF`. -/
theorem recvOf_dist_new {W N s k : Nat} {graph : Graph} {D : List Nat} {F : Nat → List Nat}
    (hg : ValidGraph N graph) (h : LevelInv W N graph s k D F) (r v : Nat)
    (hv : D.getD v INF = INF) :
    (recvOf W k graph D F r).dist.getD v INF = k + 1 ∨
      (recvOf W k graph D F r).dist.getD v INF = INF := by
  have h1 := (scanOf_spec hg h r).dist v
  have h2 := (recvOf_spec hg h r).dist v
  rw [h2]
  split_ifs with hc
  · exact Or.inl rfl
  · rw [h1]
    split_ifs with hc1
    · exact Or.inl rfl
    · exact Or.inr hv

/-- A vertex that is no neighbour of the frontier keeps its slot on every process. -/
theorem recvOf_dist_untouched {W N s k : Nat} {graph : Graph} {D : List Nat}
    {F : Nat → List Nat} (hg : ValidGraph N graph) (h : LevelInv W N graph s k D F)
    (r v : Nat) (hr : r < W)
    (hv : ¬ ∃ u, HopDist graph s u k ∧ v ∈ graph.getD u []) :
    (recvOf W k graph D F r).dist.getD v INF = D.getD v INF := by
  have hn : ∀ r', r' < W → v ∉ (F r').flatMap (fun u => graph.getD u []) := by
    intro r' hr' hc
    obtain ⟨u, hu, _, hvu⟩ := (mem_nbrs h hr' v).mp hc
    exact hv ⟨u, hu, hvu⟩
  have h1 := (scanOf_spec hg h r).dist v
  have hc : ¬ (D.getD v INF = INF ∧ v % W = r ∧
      v ∈ (F r).flatMap (fun u => graph.getD u [])) := fun c => hn r hr c.2.2
  rw [if_neg hc] at h1
  have h2 := (recvOf_spec hg h r).dist v
  have hc2 : ¬ ((scanOf W k graph D F r).dist.getD v INF = INF ∧
      v ∈ recvBufOf W k graph D F) := by
    rintro ⟨_, hm⟩
    obtain ⟨r', hr', hs'⟩ := (mem_recvBufOf W k graph D F v).mp hm
    exact hn r' hr' (((scanOf_spec hg h r').send v).mp hs').2.2
  rw [if_neg hc2, h1] at h2
  exact h2

/-- A neighbour of the frontier whose slot holds `INF` is written by some process. -/
theorem recvOf_dist_found {W N s k : Nat} {graph : Graph} {D : List Nat}
    {F : Nat → List Nat} (hW : 0 < W) (hg : ValidGraph N graph)
    (h : LevelInv W N graph s k D F) (v : Nat) (hv : D.getD v INF = INF)
    (hd : ∃ u, HopDist graph s u k ∧ v ∈ graph.getD u []) :
    ∃ r, r < W ∧ (recvOf W k graph D F r).dist.getD v INF = k + 1 := by
  obtain ⟨u, hu, hvu⟩ := hd
  have hr0 : u % W < W := Nat.mod_lt u hW
  have hnb : v ∈ (F (u % W)).flatMap (fun u => graph.getD u []) :=
    (mem_nbrs h hr0 v).mpr ⟨u, hu, rfl, hvu⟩
  refine ⟨u % W, hr0, ?_⟩
  have h1 := (scanOf_spec hg h (u % W)).dist v
  have h2 := (recvOf_spec hg h (u % W)).dist v
  rw [h2]
  split_ifs with hc
  · rfl
  · rw [h1]
    by_cases hown : v % W = u % W
    · rw [if_pos ⟨hv, hown, hnb⟩]
    · exfalso
      apply hc
      constructor
      · rw [h1, if_neg (fun c => hown c.2.1)]
        exact hv
      · exact (mem_recvBufOf W k graph D F v).mpr
          ⟨u % W, hr0, ((scanOf_spec hg h (u % W)).send v).mpr ⟨hv, hown, hnb⟩⟩

theorem levelBody_next (W N k : Nat) (graph : Graph) (D : List Nat) (F : Nat → List Nat) :
    levelBody W N graph k (mkState W D F) =
      mkState W (nextDist W N k graph D F) (nextFront W k graph D F) := by
  rw [levelBody_mkState]
  rfl

theorem getD_nextDist (W N k : Nat) (graph : Graph) (D : List Nat) (F : Nat → List Nat)
    (v : Nat) (hv : v < N) :
    (nextDist W N k graph D F).getD v INF =
      minOver ((List.range W).map (fun r => (recvOf W k graph D F r).dist.getD v INF)) := by
  unfold nextDist
  rw [getD_allreduceMin _ _ _ hv, List.map_map]
  rfl

theorem range_map_ne_nil {α : Type} (W : Nat) (hW : 0 < W) (f : Nat → α) :
    (List.range W).map f ≠ [] := by
  intro hc
  have := congrArg List.length hc
  simp at this
  omega

theorem nextDist_old {W N s k : Nat} {graph : Graph} {D : List Nat} {F : Nat → List Nat}
    (hW : 0 < W) (hg : ValidGraph N graph) (h : LevelInv W N graph s k D F) (v : Nat)
    (hvN : v < N) (hv : D.getD v INF ≠ INF) :
    (nextDist W N k graph D F).getD v INF = D.getD v INF := by
  rw [getD_nextDist _ _ _ _ _ _ _ hvN]
  apply minOver_const _ _ (range_map_ne_nil W hW _)
  intro x hx
  obtain ⟨r, _, rfl⟩ := List.mem_map.mp hx
  exact recvOf_dist_old hg h r v hv

theorem nextDist_untouched {W N s k : Nat} {graph : Graph} {D : List Nat}
    {F : Nat → List Nat} (hW : 0 < W) (hg : ValidGraph N graph)
    (h : LevelInv W N graph s k D F) (v : Nat) (hvN : v < N)
    (hv : ¬ ∃ u, HopDist graph s u k ∧ v ∈ graph.getD u []) :
    (nextDist W N k graph D F).getD v INF = D.getD v INF := by
  rw [getD_nextDist _ _ _ _ _ _ _ hvN]
  apply minOver_const _ _ (range_map_ne_nil W hW _)
  intro x hx
  obtain ⟨r, hr, rfl⟩ := List.mem_map.mp hx
  exact recvOf_dist_untouched hg h r v (List.mem_range.mp hr) hv

theorem nextDist_found {W N s k : Nat} {graph : Graph} {D : List Nat} {F : Nat → List Nat}
    (hW : 0 < W) (hg : ValidGraph N graph) (hs : s < N) (hN : N ≤ INF)
    (h : LevelInv W N graph s k D F) (v : Nat) (hvN : v < N) (hv : D.getD v INF = INF)
    (hd : ∃ u, HopDist graph s u k ∧ v ∈ graph.getD u []) :
    (nextDist W N k graph D F).getD v INF = k + 1 := by
  rw [getD_nextDist _ _ _ _ _ _ _ hvN]
  have hk : k + 1 ≤ INF := by
    obtain ⟨u, hu, _⟩ := hd
    have := hopDist_lt hg hs hu
    omega
  obtain ⟨r, hr, hval⟩ := recvOf_dist_found hW hg h v hv hd
  apply minOver_pick _ _ hk
  · exact List.mem_map.mpr ⟨r, List.mem_range.mpr hr, hval⟩
  · intro x hx
    obtain ⟨r', _, rfl⟩ := List.mem_map.mp hx
    exact recvOf_dist_new hg h r' v hv

/-- The frontier built during level `k` by rank `r` holds the vertices at hop
distance `k + 1` that `r` owns. -/
theorem mem_nextFront {W N s k : Nat} {graph : Graph} {D : List Nat} {F : Nat → List Nat}
    (hW : 0 < W) (hg : ValidGraph N graph) (hs : s < N) (hN : N ≤ INF)
    (h : LevelInv W N graph s k D F) (r : Nat) (hr : r < W) (v : Nat) :
    v ∈ nextFront W k graph D F r ↔ (HopDist graph s v (k + 1) ∧ v % W = r) := by
  unfold nextFront
  rw [(recvOf_spec hg h r).next v, (scanOf_spec hg h r).next v]
  constructor
  · rintro (⟨hD, hown, hnb⟩ | ⟨_, hrecv, hown⟩)
    · obtain ⟨u, hu, _, hvu⟩ := (mem_nbrs h hr v).mp hnb
      exact ⟨hopDist_succ hu hvu (inv_inf_far hg hs hN h hD), hown⟩
    · obtain ⟨r', hr', hsend⟩ := (mem_recvBufOf W k graph D F v).mp hrecv
      obtain ⟨hD, _, hnb⟩ := ((scanOf_spec hg h r').send v).mp hsend
      obtain ⟨u, hu, _, hvu⟩ := (mem_nbrs h hr' v).mp hnb
      exact ⟨hopDist_succ hu hvu (inv_inf_far hg hs hN h hD), hown⟩
  · rintro ⟨hv, hown⟩
    obtain ⟨u, hu, hvu⟩ := hopDist_pred hv
    have hvN : v < N := walk_lt hg hs hv.1
    have hD : D.getD v INF = INF := by
      apply h.far v hvN
      intro n hn hw
      have := hv.2 n hw
      omega
    by_cases hnb : v ∈ (F r).flatMap (fun u => graph.getD u [])
    · exact Or.inl ⟨hD, hown, hnb⟩
    · right
      have hr0 : u % W < W := Nat.mod_lt u hW
      have hnb0 : v ∈ (F (u % W)).flatMap (fun u => graph.getD u []) :=
        (mem_nbrs h hr0 v).mpr ⟨u, hu, rfl, hvu⟩
      have hne : v % W ≠ u % W := by
        intro hc
        apply hnb
        rw [← hown, hc]
        exact hnb0
      refine ⟨?_, ?_, hown⟩
      · rw [(scanOf_spec hg h r).dist v, if_neg (fun c => hnb c.2.2)]
        exact hD
      · exact (mem_recvBufOf W k graph D F v).mpr
          ⟨u % W, hr0, ((scanOf_spec hg h (u % W)).send v).mpr ⟨hD, hne, hnb0⟩⟩

/-- One execution of the loop body carries the level invariant from `k` to `k + 1`. -/
theorem levelInv_step {W N s k : Nat} {graph : Graph} {D : List Nat} {F : Nat → List Nat}
    (hW : 0 < W) (hg : ValidGraph N graph) (hs : s < N) (hN : N ≤ INF)
    (h : LevelInv W N graph s k D F) :
    LevelInv W N graph s (k + 1) (nextDist W N k graph D F) (nextFront W k graph D F) := by
  constructor
  · exact length_allreduceMin _ _
  · intro v d hd hv
    have hvN : v < N := walk_lt hg hs hv.1
    have hdN := hopDist_lt hg hs hv
    by_cases hdk : d ≤ k
    · have h1 := h.near v d hdk hv
      rw [nextDist_old hW hg h v hvN (by omega), h1]
    · have hd1 : d = k + 1 := by omega
      subst hd1
      have hD : D.getD v INF = INF := by
        apply h.far v hvN
        intro n hn hw
        have := hv.2 n hw
        omega
      obtain ⟨u, hu, hvu⟩ := hopDist_pred hv
      exact nextDist_found hW hg hs hN h v hvN hD ⟨u, hu, hvu⟩
  · intro v hvN hfar
    have hD : D.getD v INF = INF := h.far v hvN (fun n hn => hfar n (by omega))
    rw [nextDist_untouched hW hg h v hvN, hD]
    rintro ⟨u, hu, hvu⟩
    exact hfar (k + 1) (Nat.le_refl _) (Walk.snoc hu.1 hvu)
  · intro r hr v
    exact mem_nextFront hW hg hs hN h r hr v

/-! ## Initial state -/

theorem initState_eq {W N s : Nat} (hW : 0 < W) (hs : s < N) :
    initState W N s =
      mkState W ((List.replicate N INF).set s 0) (fun r => if r = s % W then [s] else []) := by
  have hr0 : s % W < W := Nat.mod_lt s hW
  have hsrc : (((List.range W).map (fun r => initWorker r W N s)).map
      (fun w => w.dist)).getD (s % W) [] = (List.replicate N INF).set s 0 := by
    rw [List.map_map, List.getD_eq_getElem?_getD, List.getElem?_map, List.getElem?_range hr0]
    simp [initWorker]
  unfold initState bcastSource
  simp only []
  rw [hsrc, getD_set]
  simp only [List.length_replicate, hs, and_self, if_true, mkState, List.map_map]
  apply List.map_congr_left
  intro r _
  by_cases hr : r = s % W
  · simp [initWorker, hr]
  · simp [initWorker, hr]

theorem levelInv_init {W N s : Nat} (graph : Graph) (hs : s < N) :
    LevelInv W N graph s 0 ((List.replicate N INF).set s 0)
      (fun r => if r = s % W then [s] else []) := by
  constructor
  · simp
  · intro v d hd hv
    have hd0 : d = 0 := by omega
    subst hd0
    have hvs := walk_zero hv.1
    subst hvs
    rw [getD_set]
    simp [hs]
  · intro v hvN hfar
    have hne : ¬ (s = v ∧ s < (List.replicate N INF).length) := by
      rintro ⟨rfl, _⟩
      exact hfar 0 (Nat.le_refl 0) Walk.nil
    rw [getD_set, if_neg hne, getD_replicate, if_pos hvN]
  · intro r _ v
    by_cases hr : r = s % W
    · simp only [hr, if_true, List.mem_singleton]
      constructor
      · rintro rfl
        exact ⟨hopDist_source graph v, rfl⟩
      · rintro ⟨hv, _⟩
        exact walk_zero hv.1
    · simp only [hr, if_false, List.not_mem_nil, false_iff]
      rintro ⟨hv, hvr⟩
      have := walk_zero hv.1
      subst this
      exact hr hvr.symm

/-! ## The level loop -/

theorem globalHasWork_mkState (W : Nat) (D : List Nat) (F : Nat → List Nat) :
    globalHasWork (mkState W D F) = true ↔ ∃ r, r < W ∧ F r ≠ [] := by
  simp only [globalHasWork, mkState, List.any_eq_true, List.mem_map, List.mem_range]
  constructor
  · rintro ⟨w, ⟨r, hr, rfl⟩, hw⟩
    refine ⟨r, hr, ?_⟩
    intro hc
    simp [hc] at hw
  · rintro ⟨r, hr, hne⟩
    refine ⟨_, ⟨r, hr, rfl⟩, ?_⟩
    cases hF : F r with
    | nil => exact absurd hF hne
    | cons a l => simp

/-- The flag `globalHasWork` after level `k - 1` tells whether level `k` is inhabited. -/
theorem globalHasWork_iff {W N s k : Nat} {graph : Graph} {D : List Nat} {F : Nat → List Nat}
    (hW : 0 < W) (h : LevelInv W N graph s k D F) :
    globalHasWork (mkState W D F) = true ↔ ∃ v, HopDist graph s v k := by
  rw [globalHasWork_mkState]
  constructor
  · rintro ⟨r, hr, hne⟩
    obtain ⟨v, hv⟩ := List.exists_mem_of_ne_nil _ hne
    exact ⟨v, ((h.front r hr v).mp hv).1⟩
  · rintro ⟨v, hv⟩
    have hr : v % W < W := Nat.mod_lt v hW
    exact ⟨v % W, hr, List.ne_nil_of_mem ((h.front _ hr v).mpr ⟨hv, rfl⟩)⟩

/-- Below an inhabited level every level is inhabited. -/
theorem hopDist_below {graph : Graph} {s : Nat} (d : Nat) :
    ∀ v, HopDist graph s v d → ∀ j, j ≤ d → ∃ u, HopDist graph s u j := by
  induction d with
  | zero =>
    intro v hv j hj
    have : j = 0 := by omega
    subst this
    exact ⟨v, hv⟩
  | succ d ih =>
    intro v hv j hj
    by_cases hjd : j = d + 1
    · subst hjd
      exact ⟨v, hv⟩
    · obtain ⟨u, hu, _⟩ := hopDist_pred hv
      exact ih u hu j (by omega)

/-- When the level after `k` is empty, the vector on entry to it is the table of
hop distances. -/
theorem distSpec_of_inv {W N s k : Nat} {graph : Graph} {D : List Nat} {F : Nat → List Nat}
    (h : LevelInv W N graph s (k + 1) D F) (hend : ¬ ∃ v, HopDist graph s v (k + 1)) :
    DistSpec N graph s D := by
  refine ⟨h.len, ?_⟩
  intro v hvN
  constructor
  · intro d hd
    apply h.near v d _ hd
    by_contra hc
    obtain ⟨u, hu⟩ := hopDist_below d v hd (k + 1) (by omega)
    exact hend ⟨u, hu⟩
  · intro hun
    exact h.far v hvN (fun n _ => hun n)

/-- The level loop, entered at level `k` in the state reached after `k`
executions of the body, stops after fewer than `N - k` further levels. -/
theorem bfsLoop_run {W N s : Nat} {graph : Graph}
    (hW : 0 < W) (hg : ValidGraph N graph) (hs : s < N) (hN : N ≤ INF) (fuel : Nat) :
    ∀ (k : Nat) (D : List Nat) (F : Nat → List Nat),
      runLevels W N s graph k = mkState W D F →
      LevelInv W N graph s k D F →
      (∃ v, HopDist graph s v k) →
      N ≤ fuel + k →
      (∀ j, 1 ≤ j → j ≤ k → globalHasWork (runLevels W N s graph j) = true) →
      ∃ lvl D1 F1,
        bfsLoop W N graph fuel k (mkState W D F) = some (lvl, mkState W D1 F1) ∧
        runLevels W N s graph (lvl + 1) = mkState W D1 F1 ∧
        k ≤ lvl ∧ lvl < N ∧
        DistSpec N graph s D1 ∧
        globalHasWork (mkState W D1 F1) = false ∧
        (∀ j, 1 ≤ j → j ≤ lvl → globalHasWork (runLevels W N s graph j) = true) := by
  induction fuel with
  | zero =>
    intro k D F _ _ hne hfuel _
    obtain ⟨v, hv⟩ := hne
    have := hopDist_lt hg hs hv
    omega
  | succ fuel ih =>
    intro k D F hrun hinv hne hfuel hwork
    have hstep := levelInv_step hW hg hs hN hinv
    have hrun1 : runLevels W N s graph (k + 1) =
        mkState W (nextDist W N k graph D F) (nextFront W k graph D F) := by
      show levelBody W N graph k (runLevels W N s graph k) = _
      rw [hrun, levelBody_next]
    have hkN : k < N := by
      obtain ⟨v, hv⟩ := hne
      exact hopDist_lt hg hs hv
    by_cases hmore : globalHasWork
        (mkState W (nextDist W N k graph D F) (nextFront W k graph D F)) = true
    · have hne1 := (globalHasWork_iff hW hstep).mp hmore
      have hwork1 : ∀ j, 1 ≤ j → j ≤ k + 1 →
          globalHasWork (runLevels W N s graph j) = true := by
        intro j hj1 hj2
        by_cases hjk : j ≤ k
        · exact hwork j hj1 hjk
        · have : j = k + 1 := by omega
          subst this
          rw [hrun1]
          exact hmore
      obtain ⟨lvl, D1, F1, h1, h2, h3, h4, h5, h6, h7⟩ :=
        ih (k + 1) _ _ hrun1 hstep hne1 (by omega) hwork1
      refine ⟨lvl, D1, F1, ?_, h2, by omega, h4, h5, h6, h7⟩
      simp only [bfsLoop, levelBody_next, hmore, if_true]
      exact h1
    · have hend : ¬ ∃ v, HopDist graph s v (k + 1) :=
        fun c => hmore ((globalHasWork_iff hW hstep).mpr c)
      refine ⟨k, _, _, ?_, hrun1, Nat.le_refl k, hkN, distSpec_of_inv hstep hend, ?_, hwork⟩
      · simp only [bfsLoop, levelBody_next, hmore]
        rfl
      · simpa using hmore

/-! ## The whole run -/

theorem validGraph_of {N : Nat} {graph : Graph} (hlen : graph.length = N)
    (hnb : ∀ l ∈ graph, ∀ v ∈ l, v < N) : ValidGraph N graph := by
  refine ⟨hlen, ?_⟩
  intro u v hv
  rw [List.getD_eq_getElem?_getD] at hv
  cases hu : graph[u]? with
  | none => simp [hu] at hv
  | some l =>
    rw [hu] at hv
    exact hnb l (List.getElem?_mem hu) v hv

/-- Every state of the run is of the form `mkState` and satisfies the level invariant. -/
theorem runLevels_inv {W N s : Nat} {graph : Graph}
    (hW : 0 < W) (hg : ValidGraph N graph) (hs : s < N) (hN : N ≤ INF) (j : Nat) :
    ∃ D F, runLevels W N s graph j = mkState W D F ∧ LevelInv W N graph s j D F := by
  induction j with
  | zero => exact ⟨_, _, initState_eq hW hs, levelInv_init graph hs⟩
  | succ j ih =>
    obtain ⟨D, F, hrun, hinv⟩ := ih
    refine ⟨_, _, ?_, levelInv_step hW hg hs hN hinv⟩
    show levelBody W N graph j (runLevels W N s graph j) = _
    rw [hrun, levelBody_next]

theorem mem_mkState {W : Nat} {D : List Nat} {F : Nat → List Nat} {w : Worker}
    (h : w ∈ mkState W D F) : ∃ r, r < W ∧ w = { rank := r, dist := D, Frontier := F r } := by
  obtain ⟨r, hr, rfl⟩ := List.mem_map.mp h
  exact ⟨r, List.mem_range.mp hr, rfl⟩

theorem length_mkState (W : Nat) (D : List Nat) (F : Nat → List Nat) :
    (mkState W D F).length = W := by
  simp [mkState]

/-- The level loop entered from the initial state. -/
theorem bfsLoop_init {W N s : Nat} {graph : Graph}
    (hW : 0 < W) (hg : ValidGraph N graph) (hs : s < N) (hN : N ≤ INF)
    (fuel : Nat) (hfuel : N ≤ fuel) :
    ∃ lvl D1 F1,
      bfsLoop W N graph fuel 0 (initState W N s) = some (lvl, mkState W D1 F1) ∧
      runLevels W N s graph (lvl + 1) = mkState W D1 F1 ∧
      lvl < N ∧
      DistSpec N graph s D1 ∧
      globalHasWork (mkState W D1 F1) = false ∧
      (∀ j, 1 ≤ j → j ≤ lvl → globalHasWork (runLevels W N s graph j) = true) := by
  obtain ⟨lvl, D1, F1, h1, h2, _, h4, h5, h6, h7⟩ :=
    bfsLoop_run hW hg hs hN fuel 0 _ _ (initState_eq hW hs) (levelInv_init graph hs)
      ⟨s, hopDist_source graph s⟩ (by omega) (fun j h1 h0 => by omega)
  refine ⟨lvl, D1, F1, ?_, h2, h4, h5, h6, h7⟩
  rw [initState_eq hW hs]
  exact h1

/-- On well-formed input `distributedBFS` returns, and every process holds the
table of hop distances. -/
theorem distributedBFS_core {W N s : Nat} {graph : Graph}
    (hW : 0 < W) (hg : ValidGraph N graph) (hs : s < N) (hN : N ≤ INF)
    (fuel : Nat) (hfuel : N ≤ fuel) :
    ∃ D1 F1, distributedBFS fuel W N s graph = some (mkState W D1 F1) ∧
      DistSpec N graph s D1 ∧ ∀ r, r < W → F1 r = [] := by
  obtain ⟨lvl, D1, F1, h1, _, _, h4, h5, _⟩ := bfsLoop_init hW hg hs hN fuel hfuel
  refine ⟨D1, F1, ?_, h4, ?_⟩
  · unfold distributedBFS
    rw [h1]
    rfl
  · intro r hr
    by_contra hc
    have := (globalHasWork_mkState W D1 F1).mpr ⟨r, hr, hc⟩
    rw [h5] at this
    exact Bool.false_ne_true this

/-- A table of hop distances is determined by the graph and the source. -/
theorem distSpec_unique {N s : Nat} {graph : Graph} {D1 D2 : List Nat}
    (h1 : DistSpec N graph s D1) (h2 : DistSpec N graph s D2) : D1 = D2 := by
  apply List.ext_getElem (h1.1.trans h2.1.symm)
  intro v hv1 hv2
  have hvN : v < N := h1.1 ▸ hv1
  have e1 : D1.getD v INF = D1[v] := List.getD_eq_getElem D1 INF hv1
  have e2 : D2.getD v INF = D2[v] := List.getD_eq_getElem D2 INF hv2
  rw [← e1, ← e2]
  by_cases hr : ∃ n, Walk graph s n v
  · obtain ⟨n, hn⟩ := hr
    obtain ⟨d, _, hd⟩ := hopDist_of_walk hn
    rw [(h1.2 v hvN).1 d hd, (h2.2 v hvN).1 d hd]
  · have hun : Unreachable graph s v := fun n hn => hr ⟨n, hn⟩
    rw [(h1.2 v hvN).2 hun, (h2.2 v hvN).2 hun]

/-! ## Loading the graph -/

theorem length_addEdge (g : Graph) (e : Nat × Nat × Int) :
    (addEdge g e).length = g.length := by
  unfold addEdge
  split_ifs <;> simp

theorem getD_addEdge (g : Graph) (e : Nat × Nat × Int) (hu : e.1 < g.length)
    (hv : e.2.1 < g.length) (x : Nat) :
    (addEdge g e).getD x [] = g.getD x [] ++ contrib e x := by
  obtain ⟨u, v, d⟩ := e
  simp only at hu hv
  unfold addEdge contrib
  simp only []
  by_cases hd : d = 1
  · simp only [hd, if_true, getD_set, List.length_set, hu, hv, and_true]
    by_cases hxv : v = x
    · subst hxv
      by_cases hxu : u = v
      · subst hxu
        simp
      · have hxu2 : ¬ v = u := fun c => hxu c.symm
        simp [-List.getD_eq_getElem?_getD, hxu, hxu2]
    · have hxv2 : ¬ x = v := fun c => hxv c.symm
      by_cases hxu : u = x
      · subst hxu
        simp [-List.getD_eq_getElem?_getD, hxv, hxv2]
      · have hxu2 : ¬ x = u := fun c => hxu c.symm
        simp [-List.getD_eq_getElem?_getD, hxu, hxu2, hxv, hxv2]
  · simp only [hd, if_false, getD_set, hv, and_true]
    by_cases hxv : v = x
    · subst hxv
      simp
    · have hxv2 : ¬ x = v := fun c => hxv c.symm
      simp [-List.getD_eq_getElem?_getD, hxv, hxv2]

theorem readGraph_spec (N : Nat) (edges : List (Nat × Nat × Int))
    (he : ∀ e ∈ edges, e.1 < N ∧ e.2.1 < N) :
    (readGraph N edges).length = N ∧
      ∀ x, (readGraph N edges).getD x [] = edges.flatMap (fun e => contrib e x) := by
  unfold readGraph
  induction edges using List.reverseRecOn with
  | nil =>
    refine ⟨by simp, ?_⟩
    intro x
    rw [List.foldl_nil, getD_replicate]
    split_ifs <;> rfl
  | append_singleton l e ih =>
    obtain ⟨hlen, hval⟩ := ih (fun e2 h2 => he e2 (by simp [h2]))
    have hin := he e (by simp)
    rw [List.foldl_append]
    simp only [List.foldl_cons, List.foldl_nil]
    refine ⟨by rw [length_addEdge, hlen], ?_⟩
    intro x
    rw [getD_addEdge _ _ (by rw [hlen]; exact hin.1) (by rw [hlen]; exact hin.2), hval x]
    simp

theorem clearBlocked_spec (g : Graph) (blocked : List Nat) :
    (clearBlocked g blocked).length = g.length ∧
      ∀ x, (clearBlocked g blocked).getD x [] = if x ∈ blocked then [] else g.getD x [] := by
  unfold clearBlocked
  induction blocked using List.reverseRecOn with
  | nil => simp
  | append_singleton l b ih =>
    obtain ⟨hlen, hval⟩ := ih
    rw [List.foldl_append]
    simp only [List.foldl_cons, List.foldl_nil]
    refine ⟨by rw [List.length_set, hlen], ?_⟩
    intro x
    rw [getD_set, hval x, hlen]
    by_cases hbx : b = x
    · subst hbx
      by_cases hlt : b < g.length
      · simp [hlt]
      · have : g.getD b [] = [] := by
          rw [List.getD_eq_getElem?_getD, List.getElem?_eq_none (Nat.le_of_not_lt hlt)]
          rfl
        simp [-List.getD_eq_getElem?_getD, hlt, this]
    · have hbx2 : ¬ x = b := fun c => hbx c.symm
      simp [-List.getD_eq_getElem?_getD, hbx, hbx2]

theorem mem_contrib {e : Nat × Nat × Int} {x v : Nat} (h : v ∈ contrib e x) :
    v = e.1 ∨ v = e.2.1 := by
  unfold contrib at h
  split_ifs at h <;> simp at h <;> tauto

theorem getD_loadGraph (N : Nat) (edges : List (Nat × Nat × Int)) (blocked : List Nat)
    (he : ∀ e ∈ edges, e.1 < N ∧ e.2.1 < N) (x : Nat) :
    (loadGraph N edges blocked).getD x [] =
      if x ∈ blocked then [] else edges.flatMap (fun e => contrib e x) := by
  unfold loadGraph
  rw [(clearBlocked_spec _ blocked).2 x, (readGraph_spec N edges he).2 x]

theorem validGraph_loadGraph (N : Nat) (edges : List (Nat × Nat × Int)) (blocked : List Nat)
    (he : ∀ e ∈ edges, e.1 < N ∧ e.2.1 < N) :
    ValidGraph N (loadGraph N edges blocked) := by
  constructor
  · unfold loadGraph
    rw [(clearBlocked_spec _ blocked).1, (readGraph_spec N edges he).1]
  · intro u v hv
    rw [getD_loadGraph N edges blocked he u] at hv
    split_ifs at hv with hb
    · cases hv
    · obtain ⟨e, hmem, hc⟩ := List.mem_flatMap.mp hv
      rcases mem_contrib hc with h | h
      · rw [h]
        exact (he e hmem).1
      · rw [h]
        exact (he e hmem).2

/-! ## The output -/

theorem find_rank_zero {W : Nat} (hW : 0 < W) (D : List Nat) (F : Nat → List Nat) :
    (mkState W D F).find? (fun w => w.rank = 0) =
      some { rank := 0, dist := D, Frontier := F 0 } := by
  obtain ⟨n, rfl⟩ : ∃ n, W = n + 1 := ⟨W - 1, by omega⟩
  simp [mkState, List.range_succ_eq_map]

/-- On well-formed input `main` writes the report of the table of hop
distances of the loaded graph. -/
theorem mainOutput_eq {W N R : Nat} (edges : List (Nat × Nat × Int))
    (explorers blocked : List Nat) (hW : 0 < W)
    (he : ∀ e ∈ edges, e.1 < N ∧ e.2.1 < N) (hR : R < N) (hN : N ≤ INF)
    (fuel : Nat) (hfuel : N ≤ fuel) :
    ∃ D, DistSpec N (loadGraph N edges blocked) R D ∧
      mainOutput fuel W N edges explorers R blocked = some (report D explorers) := by
  obtain ⟨D1, F1, h1, h2, _⟩ :=
    distributedBFS_core hW (validGraph_loadGraph N edges blocked he) hR hN fuel hfuel
  refine ⟨D1, h2, ?_⟩
  unfold mainOutput
  rw [h1]
  simp only [find_rank_zero hW]

theorem getElem?_report (D explorers : List Nat) (i q : Nat) (h : explorers[i]? = some q) :
    (report D explorers)[i]? =
      some (if D.getD q INF = INF then -1 else (D.getD q INF : Int)) := by
  unfold report
  rw [List.getElem?_map, h]
  rfl

theorem length_report (D explorers : List Nat) :
    (report D explorers).length = explorers.length := by
  simp [report]

/-- Hop distances are finite values of the vector. -/
theorem distSpec_lt {N s : Nat} {graph : Graph} {D : List Nat}
    (hg : ValidGraph N graph) (hs : s < N) (hN : N ≤ INF) (h : DistSpec N graph s D)
    {v d : Nat} (hd : HopDist graph s v d) : D.getD v INF = d ∧ d < INF := by
  have hvN := walk_lt hg hs hd.1
  have := hopDist_lt hg hs hd
  exact ⟨(h.2 v hvN).1 d hd, by omega⟩

/-- A finite slot of the table of hop distances is a hop distance. -/
theorem distSpec_finite {N s : Nat} {graph : Graph} {D : List Nat}
    (h : DistSpec N graph s D) {v : Nat} (hvN : v < N) (hfin : D.getD v INF ≠ INF) :
    HopDist graph s v (D.getD v INF) := by
  by_cases hr : ∃ n, Walk graph s n v
  · obtain ⟨n, hn⟩ := hr
    obtain ⟨d, _, hd⟩ := hopDist_of_walk hn
    rw [(h.2 v hvN).1 d hd]
    exact hd
  · exact absurd ((h.2 v hvN).2 (fun n hn => hr ⟨n, hn⟩)) hfin

/-- The report of one query against the table of hop distances. -/
theorem report_entry {N s : Nat} {graph : Graph} {D : List Nat}
    (hg : ValidGraph N graph) (hs : s < N) (hN : N ≤ INF) (h : DistSpec N graph s D)
    (explorers : List Nat) (i q : Nat) (hq : explorers[i]? = some q) (hqN : q < N) :
    (∀ d, HopDist graph s q d → (report D explorers)[i]? = some (d : Int)) ∧
    (Unreachable graph s q → (report D explorers)[i]? = some (-1)) := by
  rw [getElem?_report D explorers i q hq]
  constructor
  · intro d hd
    obtain ⟨h1, h2⟩ := distSpec_lt hg hs hN h hd
    rw [h1, if_neg (by omega)]
  · intro hun
    rw [(h.2 q hqN).2 hun, if_pos rfl]

/-- Adding the edge `v -> u` to a graph does not make `v` reachable from `u`. -/
theorem walk_without_back_edge {g1 g2 : Graph} {u v : Nat}
    (hedge : ∀ y x, x ∈ g2.getD y [] → x ∈ g1.getD y [] ∨ (y = v ∧ x = u))
    {n x : Nat} (h : Walk g2 u n x) :
    (∃ m, Walk g1 u m x) ∨ (∃ m, Walk g1 u m v) := by
  induction h with
  | nil => exact Or.inl ⟨0, Walk.nil⟩
  | snoc _ he ih =>
    rcases ih with ⟨m, hm⟩ | hv
    · rcases hedge _ _ he with h1 | ⟨rfl, rfl⟩
      · exact Or.inl ⟨m + 1, Walk.snoc hm h1⟩
      · exact Or.inr ⟨m, hm⟩
    · exact Or.inr hv

theorem unreachable_with_back_edge {N : Nat} (pre post : List (Nat × Nat × Int))
    (u v : Nat) (d : Int) (blocked : List Nat) (hd : d ≠ 1)
    (he : ∀ e ∈ pre ++ (u, v, d) :: post, e.1 < N ∧ e.2.1 < N)
    (hno : Unreachable (loadGraph N (pre ++ post) blocked) u v) :
    Unreachable (loadGraph N (pre ++ (u, v, d) :: post) blocked) u v := by
  have he2 : ∀ e ∈ pre ++ post, e.1 < N ∧ e.2.1 < N := by
    intro e hmem
    apply he e
    rcases List.mem_append.mp hmem with h | h
    · exact List.mem_append_left _ h
    · exact List.mem_append_right _ (List.mem_cons_of_mem _ h)
  have hedge : ∀ y x, x ∈ (loadGraph N (pre ++ (u, v, d) :: post) blocked).getD y [] →
      x ∈ (loadGraph N (pre ++ post) blocked).getD y [] ∨ (y = v ∧ x = u) := by
    intro y x hx
    rw [getD_loadGraph N _ blocked he y] at hx
    rw [getD_loadGraph N _ blocked he2 y]
    split_ifs at hx ⊢ with hb
    · exact Or.inl hx
    · simp only [List.flatMap_append, List.flatMap_cons, List.mem_append] at hx ⊢
      rcases hx with h | h | h
      · exact Or.inl (Or.inl h)
      · right
        simp only [contrib, hd, if_false] at h
        split_ifs at h with hy
        · exact ⟨hy, List.mem_singleton.mp h⟩
        · cases h
      · exact Or.inl (Or.inr h)
  intro n hn
  rcases walk_without_back_edge hedge hn with ⟨m, hm⟩ | ⟨m, hm⟩
  · exact hno m hm
  · exact hno m hm

/-! ## The undirected reading -/

theorem mem_loadGraph_undirected {N : Nat} (edges : List (Nat × Nat × Int))
    (he : ∀ e ∈ edges, e.1 < N ∧ e.2.1 < N) (hflag : ∀ e ∈ edges, e.2.2 = 1) (y x : Nat) :
    x ∈ (loadGraph N edges []).getD y [] ↔ UAdj edges y x := by
  rw [getD_loadGraph N edges [] he y]
  simp only [List.not_mem_nil, if_false, List.mem_flatMap, UAdj]
  constructor
  · rintro ⟨e, hmem, hc⟩
    refine ⟨e, hmem, ?_⟩
    simp only [contrib, hflag e hmem, if_true, List.mem_append] at hc
    rcases hc with h | h
    · split_ifs at h with hy
      · exact Or.inl ⟨hy.symm, (List.mem_singleton.mp h).symm⟩
      · cases h
    · split_ifs at h with hy
      · exact Or.inr ⟨(List.mem_singleton.mp h).symm, hy.symm⟩
      · cases h
  · rintro ⟨e, hmem, hc⟩
    refine ⟨e, hmem, ?_⟩
    simp only [contrib, hflag e hmem, if_true, List.mem_append]
    rcases hc with ⟨h1, h2⟩ | ⟨h1, h2⟩
    · left
      simp [h1.symm, h2.symm]
    · right
      simp [h1.symm, h2.symm]

theorem walk_iff_uwalk {N : Nat} (edges : List (Nat × Nat × Int))
    (he : ∀ e ∈ edges, e.1 < N ∧ e.2.1 < N) (hflag : ∀ e ∈ edges, e.2.2 = 1) (s n v : Nat) :
    Walk (loadGraph N edges []) s n v ↔ UWalk edges s n v := by
  constructor
  · intro h
    induction h with
    | nil => exact UWalk.nil
    | snoc _ hedge ih =>
      exact UWalk.snoc ih ((mem_loadGraph_undirected edges he hflag _ _).mp hedge)
  · intro h
    induction h with
    | nil => exact Walk.nil
    | snoc _ hedge ih =>
      exact Walk.snoc ih ((mem_loadGraph_undirected edges he hflag _ _).mpr hedge)

theorem hopDist_iff_uhopDist {N : Nat} (edges : List (Nat × Nat × Int))
    (he : ∀ e ∈ edges, e.1 < N ∧ e.2.1 < N) (hflag : ∀ e ∈ edges, e.2.2 = 1) (s v d : Nat) :
    HopDist (loadGraph N edges []) s v d ↔ UHopDist edges s v d := by
  unfold HopDist UHopDist
  simp only [walk_iff_uwalk edges he hflag]

theorem readGraph_snoc (N : Nat) (pre : List (Nat × Nat × Int)) (e : Nat × Nat × Int) :
    readGraph N (pre ++ [e]) = addEdge (readGraph N pre) e := by
  simp [readGraph, List.foldl_append]

/-- A vertex that no record mentions is reachable only from itself. -/
theorem unreachable_isolated {N : Nat} (edges : List (Nat × Nat × Int)) (blocked : List Nat)
    (he : ∀ e ∈ edges, e.1 < N ∧ e.2.1 < N) (R q : Nat) (hq : q ≠ R)
    (hiso : ∀ e ∈ edges, e.1 ≠ q ∧ e.2.1 ≠ q) :
    Unreachable (loadGraph N edges blocked) R q := by
  intro n hn
  cases hn with
  | nil => exact hq rfl
  | snoc _ hedge =>
    rw [getD_loadGraph N edges blocked he] at hedge
    split_ifs at hedge with hb
    · cases hedge
    · obtain ⟨e, hmem, hc⟩ := List.mem_flatMap.mp hedge
      rcases mem_contrib hc with h | h
      · exact (hiso e hmem).1 h.symm
      · exact (hiso e hmem).2 h.symm

/-! ## Blocked vertices, halting, stability -/

theorem getD_loadGraph_blocked (N : Nat) (edges : List (Nat × Nat × Int))
    (blocked : List Nat) (x : Nat) :
    (loadGraph N edges blocked).getD x [] =
      if x ∈ blocked then [] else (readGraph N edges).getD x [] := by
  unfold loadGraph
  exact (clearBlocked_spec _ blocked).2 x

theorem frontier_nil_of_no_work {ws : List Worker} (h : globalHasWork ws = false) :
    ∀ w ∈ ws, w.Frontier = [] := by
  intro w hw
  by_contra hc
  have : globalHasWork ws = true := by
    simp only [globalHasWork, List.any_eq_true]
    refine ⟨w, hw, ?_⟩
    cases hF : w.Frontier with
    | nil => exact absurd hF hc
    | cons a l => simp
  rw [h] at this
  exact Bool.false_ne_true this

/-- The scan writes only slots that hold `INF`. -/
theorem visit_keeps (rank size level : Nat) (st : ScanState) (a v : Nat)
    (hv : st.dist.getD v INF ≠ INF) :
    (visit rank size level st a).dist.getD v INF = st.dist.getD v INF := by
  unfold visit
  split_ifs with h1 h2
  · simp only [getD_set]
    have hne : ¬ (a = v ∧ a < st.dist.length) := by
      rintro ⟨rfl, _⟩
      exact hv h1
    rw [if_neg hne]
  · rfl
  · rfl

/-- The processing of the received buffer writes only slots that hold `INF`. -/
theorem receive_keeps (rank size level : Nat) (st : ScanState) (a v : Nat)
    (hv : st.dist.getD v INF ≠ INF) :
    (receive rank size level st a).dist.getD v INF = st.dist.getD v INF := by
  unfold receive
  by_cases h1 : st.dist.getD a INF = INF
  · rw [if_pos h1]
    simp only [getD_set]
    have hne : ¬ (a = v ∧ a < st.dist.length) := by
      rintro ⟨rfl, _⟩
      exact hv h1
    rw [if_neg hne]
  · rw [if_neg h1]

theorem getD_ge_length (D : List Nat) (v : Nat) (h : D.length ≤ v) : D.getD v INF = INF := by
  rw [List.getD_eq_getElem?_getD, List.getElem?_eq_none h]
  rfl

/-- A finite slot on entry to level `j` holds the hop distance of its vertex,
which is at most `j`. -/
theorem inv_finite {W N s j : Nat} {graph : Graph} {D : List Nat} {F : Nat → List Nat}
    (h : LevelInv W N graph s j D F) {v : Nat} (hfin : D.getD v INF ≠ INF) :
    ∃ d, d ≤ j ∧ HopDist graph s v d ∧ D.getD v INF = d := by
  have hvN : v < N := by
    by_contra hc
    exact hfin (getD_ge_length D v (by rw [h.len]; omega))
  by_cases hr : ∃ n, n ≤ j ∧ Walk graph s n v
  · obtain ⟨n, hn, hw⟩ := hr
    obtain ⟨d, hd, hd2⟩ := hopDist_of_walk hw
    exact ⟨d, by omega, hd2, h.near v d (by omega) hd2⟩
  · exact absurd (h.far v hvN (fun n hn hw => hr ⟨n, hn, hw⟩)) hfin

/-! ## Reconciliation -/

theorem levelBody_eq_map (size N level : Nat) (graph : Graph) (ws : List Worker) :
    levelBody size N graph level ws =
      ws.map (fun w =>
        { rank := w.rank,
          dist := allreduceMin N (preReconcile size graph level ws),
          Frontier :=
            (localLevel size graph level (recvBufAll size graph level ws) w).NextFrontier }) := by
  simp only [levelBody, preReconcile, localLevel, recvBufAll, List.map_map, Function.comp_def]

theorem length_levelBody (size N level : Nat) (graph : Graph) (ws : List Worker) :
    (levelBody size N graph level ws).length = ws.length := by
  rw [levelBody_eq_map, List.length_map]

theorem length_initState (W N s : Nat) : (initState W N s).length = W := by
  simp [initState, bcastSource]

theorem length_runLevels (W N s : Nat) (graph : Graph) (j : Nat) :
    (runLevels W N s graph j).length = W := by
  induction j with
  | zero => exact length_initState W N s
  | succ j ih =>
    show (levelBody W N graph j (runLevels W N s graph j)).length = W
    rw [length_levelBody, ih]

theorem dist_levelBody {size N level : Nat} {graph : Graph} {ws : List Worker} {w : Worker}
    (hw : w ∈ levelBody size N graph level ws) :
    w.dist = allreduceMin N (preReconcile size graph level ws) := by
  rw [levelBody_eq_map] at hw
  obtain ⟨w0, _, rfl⟩ := List.mem_map.mp hw
  rfl

/-- Slot `i` of the reduced vector is a lower bound of slot `i` of every
contribution and is attained by one of them. -/
theorem allreduceMin_is_min (N : Nat) (dists : List (List Nat)) (hne : dists ≠ []) (i : Nat)
    (hi : i < N) :
    (∀ d ∈ dists, (allreduceMin N dists).getD i INF ≤ d.getD i INF) ∧
    (∃ d ∈ dists, (allreduceMin N dists).getD i INF = d.getD i INF) := by
  rw [getD_allreduceMin N dists i hi]
  constructor
  · intro d hd
    exact minOver_le _ _ (List.mem_map.mpr ⟨d, hd, rfl⟩)
  · have hne2 : dists.map (fun d => d.getD i INF) ≠ [] := by
      intro hc
      exact hne (List.map_eq_nil_iff.mp hc)
    obtain ⟨d, hd, he⟩ := List.mem_map.mp (minOver_mem _ hne2)
    exact ⟨d, hd, he.symm⟩

theorem list_eq_of_getD {D1 D2 : List Nat} (hlen : D1.length = D2.length)
    (h : ∀ i, i < D1.length → D1.getD i INF = D2.getD i INF) : D1 = D2 := by
  apply List.ext_getElem hlen
  intro i h1 h2
  have e1 : D1.getD i INF = D1[i] := List.getD_eq_getElem D1 INF h1
  have e2 : D2.getD i INF = D2[i] := List.getD_eq_getElem D2 INF h2
  rw [← e1, ← e2]
  exact h i h1

theorem minOver_replicate (W c : Nat) (hW : 0 < W) : minOver (List.replicate W c) = c := by
  apply minOver_const
  · intro hc
    have := congrArg List.length hc
    simp at this
    omega
  · intro x hx
    exact (List.mem_replicate.mp hx).2

theorem allreduceMin_replicate (W N : Nat) (D : List Nat) (hW : 0 < W) (hD : D.length = N) :
    allreduceMin N (List.replicate W D) = D := by
  apply list_eq_of_getD
  · rw [length_allreduceMin, hD]
  · intro i hi
    rw [length_allreduceMin] at hi
    rw [getD_allreduceMin _ _ _ hi, List.map_replicate, minOver_replicate _ _ hW]

/-- The broadcast of the source slot leaves on every process the element-wise
minimum of the vectors held before it. -/
theorem allreduceMin_preBroadcast {W N s : Nat} (hW : 0 < W) (hs : s < N) :
    allreduceMin N (preBroadcast W N s) = (List.replicate N INF).set s 0 := by
  apply list_eq_of_getD
  · simp [length_allreduceMin]
  · intro i hi
    rw [length_allreduceMin] at hi
    rw [getD_allreduceMin _ _ _ hi, preBroadcast, List.map_map, getD_set]
    have hr0 : s % W < W := Nat.mod_lt s hW
    by_cases his : s = i
    · subst his
      simp only [List.length_replicate, hs, and_self, if_true]
      apply minOver_pick _ _ (Nat.zero_le _)
      · refine List.mem_map.mpr ⟨s % W, List.mem_range.mpr hr0, ?_⟩
        simp only [Function.comp_def, initWorker, if_true, getD_set, List.length_replicate, hs,
          and_self]
      · intro x hx
        obtain ⟨r, _, rfl⟩ := List.mem_map.mp hx
        simp only [Function.comp_def, initWorker]
        by_cases hr : r = s % W
        · left
          simp only [hr, if_true, getD_set, List.length_replicate, hs, and_self]
        · right
          simp only [hr, if_false, getD_replicate, hs, if_true]
    · have hne : ¬ (s = i ∧ s < (List.replicate N INF).length) := fun c => his c.1
      rw [if_neg hne, getD_replicate, if_pos hi]
      apply minOver_const _ _ (range_map_ne_nil W hW _)
      intro x hx
      obtain ⟨r, _, rfl⟩ := List.mem_map.mp hx
      simp only [Function.comp_def, initWorker]
      by_cases hr : r = s % W
      · simp only [hr, if_true, getD_set]
        rw [if_neg (fun c => his c.1), getD_replicate, if_pos hi]
      · simp only [hr, if_false, getD_replicate, hi, if_true]

theorem dist_initState {W N s : Nat} (hW : 0 < W) (hs : s < N) {w : Worker}
    (hw : w ∈ initState W N s) : w.dist = (List.replicate N INF).set s 0 := by
  rw [initState_eq hW hs] at hw
  obtain ⟨r, _, rfl⟩ := mem_mkState hw
  rfl

/-! ## Values written during a level -/

theorem visit_writes (rank size level : Nat) (st : ScanState) (a v : Nat) :
    (visit rank size level st a).dist.getD v INF = st.dist.getD v INF ∨
      (st.dist.getD v INF = INF ∧ (visit rank size level st a).dist.getD v INF = level + 1) := by
  unfold visit
  by_cases h1 : st.dist.getD a INF = INF
  · by_cases h2 : a % size = rank
    · simp only [h1, h2, if_true, getD_set]
      by_cases hc : a = v ∧ a < st.dist.length
      · right
        rw [if_pos hc]
        exact ⟨hc.1 ▸ h1, rfl⟩
      · left
        rw [if_neg hc]
    · left
      simp only [h1, h2, if_true, if_false]
  · left
    simp only [h1, if_false]

theorem receive_writes (rank size level : Nat) (st : ScanState) (a v : Nat) :
    (receive rank size level st a).dist.getD v INF = st.dist.getD v INF ∨
      (st.dist.getD v INF = INF ∧
        (receive rank size level st a).dist.getD v INF = level + 1) := by
  unfold receive
  by_cases h1 : st.dist.getD a INF = INF
  · rw [if_pos h1]
    simp only [getD_set]
    by_cases hc : a = v ∧ a < st.dist.length
    · right
      rw [if_pos hc]
      exact ⟨hc.1 ▸ h1, rfl⟩
    · left
      rw [if_neg hc]
  · left
    rw [if_neg h1]

/-- A sequence of steps each of which leaves a slot alone or moves it from `INF`
to `c` does the same as a whole. -/
theorem foldl_writes {σ α : Type} (f : σ → α → σ) (rd : σ → Nat) (c : Nat)
    (hstep : ∀ st a, rd (f st a) = rd st ∨ (rd st = INF ∧ rd (f st a) = c))
    (l : List α) (st : σ) :
    rd (l.foldl f st) = rd st ∨ (rd st = INF ∧ rd (l.foldl f st) = c) := by
  induction l generalizing st with
  | nil => exact Or.inl rfl
  | cons a l ih =>
    rw [List.foldl_cons]
    rcases ih (f st a) with h | ⟨h1, h2⟩
    · rcases hstep st a with h3 | ⟨h3, h4⟩
      · exact Or.inl (h.trans h3)
      · exact Or.inr ⟨h3, h.trans h4⟩
    · rcases hstep st a with h3 | ⟨h3, h4⟩
      · exact Or.inr ⟨h3 ▸ h1, h2⟩
      · exact Or.inr ⟨h3, h2⟩

theorem scanFrontier_writes (rank size level : Nat) (graph : Graph) (F D : List Nat) (v : Nat) :
    (scanFrontier rank size level graph F D).dist.getD v INF = D.getD v INF ∨
      (D.getD v INF = INF ∧
        (scanFrontier rank size level graph F D).dist.getD v INF = level + 1) := by
  rw [scanFrontier_eq_foldl]
  exact foldl_writes (visit rank size level) (fun st => st.dist.getD v INF) (level + 1)
    (fun st a => visit_writes rank size level st a v) _ _

theorem localLevel_writes (size : Nat) (graph : Graph) (level : Nat) (RecvBuf : List Nat)
    (w : Worker) (v : Nat) :
    (localLevel size graph level RecvBuf w).dist.getD v INF = w.dist.getD v INF ∨
      (w.dist.getD v INF = INF ∧
        (localLevel size graph level RecvBuf w).dist.getD v INF = level + 1) := by
  unfold localLevel
  have h1 := foldl_writes (receive w.rank size level) (fun st => st.dist.getD v INF) (level + 1)
    (fun st a => receive_writes w.rank size level st a v) RecvBuf
    (scanFrontier w.rank size level graph w.Frontier w.dist)
  have h2 := scanFrontier_writes w.rank size level graph w.Frontier w.dist v
  simp only at h1
  rcases h1 with h | ⟨h3, h4⟩
  · rcases h2 with h5 | ⟨h5, h6⟩
    · exact Or.inl (h.trans h5)
    · exact Or.inr ⟨h5, h.trans h6⟩
  · rcases h2 with h5 | ⟨h5, h6⟩
    · exact Or.inr ⟨h5 ▸ h3, h4⟩
    · exact Or.inr ⟨h5, h4⟩

theorem length_nextDist (W N k : Nat) (graph : Graph) (D : List Nat) (F : Nat → List Nat) :
    (nextDist W N k graph D F).length = N :=
  length_allreduceMin _ _

/-- The reconciled vector of level `k` differs from the vector on entry only in
slots that held `INF`, and these hold `k + 1`. -/
theorem nextDist_writes {W N s k : Nat} {graph : Graph} {D : List Nat} {F : Nat → List Nat}
    (hW : 0 < W) (hg : ValidGraph N graph) (hs : s < N) (hN : N ≤ INF)
    (h : LevelInv W N graph s k D F) (v : Nat) :
    (nextDist W N k graph D F).getD v INF = D.getD v INF ∨
      (D.getD v INF = INF ∧ (nextDist W N k graph D F).getD v INF = k + 1) := by
  by_cases hvN : v < N
  · by_cases hfin : D.getD v INF = INF
    · by_cases hd : ∃ u, HopDist graph s u k ∧ v ∈ graph.getD u []
      · exact Or.inr ⟨hfin, nextDist_found hW hg hs hN h v hvN hfin hd⟩
      · exact Or.inl (nextDist_untouched hW hg h v hvN hd)
    · exact Or.inl (nextDist_old hW hg h v hvN hfin)
  · left
    rw [getD_ge_length D v (by rw [h.len]; omega),
      getD_ge_length (nextDist W N k graph D F) v (by rw [length_nextDist]; omega)]

/-! ## Frontiers without repetition -/

theorem visit_nodup {rank size level : Nat} {st : ScanState} {a : Nat}
    (hlvl : level + 1 ≠ INF) (ha : a < st.dist.length)
    (h1 : st.NextFrontier.Nodup)
    (h2 : ∀ v ∈ st.NextFrontier, st.dist.getD v INF ≠ INF) :
    (visit rank size level st a).dist.length = st.dist.length ∧
    (visit rank size level st a).NextFrontier.Nodup ∧
    ∀ v ∈ (visit rank size level st a).NextFrontier,
      (visit rank size level st a).dist.getD v INF ≠ INF := by
  unfold visit
  by_cases hst : st.dist.getD a INF = INF
  · by_cases hown : a % size = rank
    · simp only [hst, hown, if_true]
      have hnot : a ∉ st.NextFrontier := fun hc => h2 a hc hst
      refine ⟨List.length_set _ _ _, ?_, ?_⟩
      · rw [List.nodup_append]
        refine ⟨h1, List.nodup_singleton a, ?_⟩
        intro x hx hx2
        rw [List.mem_singleton] at hx2
        exact hnot (hx2 ▸ hx)
      · intro v hv
        rw [getD_set]
        rcases List.mem_append.mp hv with h | h
        · have hne : ¬ (a = v ∧ a < st.dist.length) := by
            rintro ⟨rfl, _⟩
            exact hnot h
          rw [if_neg hne]
          exact h2 v h
        · rw [List.mem_singleton] at h
          subst h
          rw [if_pos ⟨rfl, ha⟩]
          exact hlvl
    · simp only [hst, hown, if_true, if_false]
      exact ⟨trivial, h1, h2⟩
  · simp only [hst, if_false]
    exact ⟨trivial, h1, h2⟩

theorem receive_nodup {rank size level : Nat} {st : ScanState} {a : Nat}
    (hlvl : level + 1 ≠ INF) (ha : a < st.dist.length)
    (h1 : st.NextFrontier.Nodup)
    (h2 : ∀ v ∈ st.NextFrontier, st.dist.getD v INF ≠ INF) :
    (receive rank size level st a).dist.length = st.dist.length ∧
    (receive rank size level st a).NextFrontier.Nodup ∧
    ∀ v ∈ (receive rank size level st a).NextFrontier,
      (receive rank size level st a).dist.getD v INF ≠ INF := by
  unfold receive
  by_cases hst : st.dist.getD a INF = INF
  · rw [if_pos hst]
    have hnot : a ∉ st.NextFrontier := fun hc => h2 a hc hst
    have hkeep : ∀ v ∈ st.NextFrontier, (st.dist.set a (level + 1)).getD v INF ≠ INF := by
      intro v hv
      rw [getD_set]
      have hne : ¬ (a = v ∧ a < st.dist.length) := by
        rintro ⟨rfl, _⟩
        exact hnot hv
      rw [if_neg hne]
      exact h2 v hv
    by_cases hown : a % size = rank
    · simp only [hown, if_true]
      refine ⟨List.length_set _ _ _, ?_, ?_⟩
      · rw [List.nodup_append]
        refine ⟨h1, List.nodup_singleton a, ?_⟩
        intro x hx hx2
        rw [List.mem_singleton] at hx2
        exact hnot (hx2 ▸ hx)
      · intro v hv
        rcases List.mem_append.mp hv with h | h
        · exact hkeep v h
        · rw [List.mem_singleton] at h
          subst h
          rw [getD_set, if_pos ⟨rfl, ha⟩]
          exact hlvl
    · simp only [hown, if_false]
      exact ⟨List.length_set _ _ _, h1, hkeep⟩
  · rw [if_neg hst]
    exact ⟨rfl, h1, h2⟩

/-- A fold of steps that keep the vector length and the absence of repetition. -/
theorem foldl_nodup (f : ScanState → Nat → ScanState) (n : Nat)
    (hstep : ∀ st a, a < n → st.dist.length = n → st.NextFrontier.Nodup →
      (∀ v ∈ st.NextFrontier, st.dist.getD v INF ≠ INF) →
      (f st a).dist.length = st.dist.length ∧ (f st a).NextFrontier.Nodup ∧
        ∀ v ∈ (f st a).NextFrontier, (f st a).dist.getD v INF ≠ INF)
    (l : List Nat) (hl : ∀ a ∈ l, a < n) (st : ScanState) (hlen : st.dist.length = n)
    (h1 : st.NextFrontier.Nodup) (h2 : ∀ v ∈ st.NextFrontier, st.dist.getD v INF ≠ INF) :
    (l.foldl f st).dist.length = n ∧ (l.foldl f st).NextFrontier.Nodup ∧
      ∀ v ∈ (l.foldl f st).NextFrontier, (l.foldl f st).dist.getD v INF ≠ INF := by
  induction l generalizing st with
  | nil => exact ⟨hlen, h1, h2⟩
  | cons a l ih =>
    rw [List.foldl_cons]
    obtain ⟨e1, e2, e3⟩ := hstep st a (hl a (by simp)) hlen h1 h2
    exact ih (fun b hb => hl b (by simp [hb])) (f st a) (e1.trans hlen) e2 e3

theorem nextFront_nodup {W N s k : Nat} {graph : Graph} {D : List Nat} {F : Nat → List Nat}
    (hW : 0 < W) (hg : ValidGraph N graph) (hs : s < N) (hN : N ≤ INF)
    (h : LevelInv W N graph s k D F) (r : Nat) (hr : r < W) :
    (nextFront W k graph D F r).Nodup := by
  by_cases hlvl : k + 1 = INF
  · have hnil : nextFront W k graph D F r = [] := by
      apply List.eq_nil_iff_forall_not_mem.mpr
      intro v hv
      have := hopDist_lt hg hs ((mem_nextFront hW hg hs hN h r hr v).mp hv).1
      omega
    rw [hnil]
    exact List.nodup_nil
  · have hscan : (scanOf W k graph D F r).dist.length = N ∧
        (scanOf W k graph D F r).NextFrontier.Nodup ∧
        ∀ v ∈ (scanOf W k graph D F r).NextFrontier,
          (scanOf W k graph D F r).dist.getD v INF ≠ INF := by
      unfold scanOf
      rw [scanFrontier_eq_foldl]
      apply foldl_nodup (visit r W k) N
        (fun st a ha hlen h1 h2 => visit_nodup hlvl (by rw [hlen]; exact ha) h1 h2)
      · intro v hv
        obtain ⟨u, _, hu⟩ := List.mem_flatMap.mp hv
        exact hg.2 u v hu
      · exact h.len
      · exact List.nodup_nil
      · intro v hv
        cases hv
    unfold nextFront recvOf
    exact (foldl_nodup (receive r W k) N
      (fun st a ha hlen h1 h2 => receive_nodup hlvl (by rw [hlen]; exact ha) h1 h2)
      _ (fun v hv => recvBufOf_lt hg h v hv) _ hscan.1 hscan.2.1 hscan.2.2).2.1

/-- Every state of the run has frontiers without repetition. -/
theorem runLevels_front {W N s : Nat} {graph : Graph}
    (hW : 0 < W) (hg : ValidGraph N graph) (hs : s < N) (hN : N ≤ INF) (j : Nat) :
    ∃ D F, runLevels W N s graph j = mkState W D F ∧ LevelInv W N graph s j D F ∧
      ∀ r, r < W → (F r).Nodup := by
  cases j with
  | zero =>
    refine ⟨_, _, initState_eq hW hs, levelInv_init graph hs, ?_⟩
    intro r _
    by_cases hr : r = s % W
    · simp [hr]
    · simp [hr]
  | succ j =>
    obtain ⟨D, F, hrun, hinv⟩ := runLevels_inv hW hg hs hN j
    refine ⟨_, _, ?_, levelInv_step hW hg hs hN hinv, ?_⟩
    · show levelBody W N graph j (runLevels W N s graph j) = _
      rw [hrun, levelBody_next]
    · intro r hr
      exact nextFront_nodup hW hg hs hN hinv r hr

/-! ## Repeated announcements -/

theorem receive_skip (rank size level : Nat) (st : ScanState) (a : Nat)
    (h : st.dist.getD a INF ≠ INF) : receive rank size level st a = st := by
  unfold receive
  rw [if_neg h]

theorem length_receive (rank size level : Nat) (st : ScanState) (a : Nat) :
    (receive rank size level st a).dist.length = st.dist.length := by
  unfold receive
  split_ifs <;> simp

theorem receive_marks {rank size level : Nat} {st : ScanState} {a : Nat}
    (hlvl : level + 1 ≠ INF) (ha : a < st.dist.length) :
    (receive rank size level st a).dist.getD a INF ≠ INF := by
  by_cases h : st.dist.getD a INF = INF
  · unfold receive
    rw [if_pos h]
    dsimp only
    rw [getD_set, if_pos ⟨rfl, ha⟩]
    exact hlvl
  · rw [receive_skip rank size level st a h]
    exact h

/-- Once the slot of `a` is finite the occurrences of `a` in a buffer are skipped. -/
theorem foldl_receive_filter (rank size level a : Nat) (l : List Nat) (st : ScanState)
    (h : st.dist.getD a INF ≠ INF) :
    (l.filter (fun x => x ≠ a)).foldl (receive rank size level) st =
      l.foldl (receive rank size level) st := by
  induction l generalizing st with
  | nil => rfl
  | cons b l ih =>
    by_cases hb : b = a
    · subst hb
      have hf : (b :: l).filter (fun x => x ≠ b) = l.filter (fun x => x ≠ b) := by
        simp
      rw [hf, List.foldl_cons, receive_skip rank size level st b h]
      exact ih st h
    · have hf : (b :: l).filter (fun x => x ≠ a) = b :: l.filter (fun x => x ≠ a) := by
        simp [hb]
      rw [hf, List.foldl_cons, List.foldl_cons]
      apply ih
      rw [receive_keeps rank size level st b a h]
      exact h

theorem foldl_receive_keepFirst (rank size level : Nat) (hlvl : level + 1 ≠ INF)
    (recv : List Nat) (st : ScanState) (hin : ∀ v ∈ recv, v < st.dist.length) :
    (keepFirst recv).foldl (receive rank size level) st =
      recv.foldl (receive rank size level) st := by
  induction recv generalizing st with
  | nil => rfl
  | cons v vs ih =>
    have hv : v < st.dist.length := hin v (by simp)
    rw [keepFirst, List.foldl_cons, List.foldl_cons,
      foldl_receive_filter rank size level v _ _ (receive_marks hlvl hv)]
    apply ih
    intro x hx
    rw [length_receive]
    exact hin x (by simp [hx])

/-! ## The exchange, segment by segment -/

theorem foldl_add_zero_eq_sum (xs : List Nat) :
    xs.foldl (fun acc n => acc + n) 0 = xs.sum := by
  rw [foldl_add_eq_sum, Nat.zero_add]

theorem sum_take_length (xs : List Nat) : (xs.take xs.length).sum = xs.sum := by
  rw [List.take_length]

/-- The segment of the concatenation that starts at the offset of sender `i`
and has the length of its buffer is its buffer. -/
theorem flatten_segment (sendBufs : List (List Nat)) (i : Nat) :
    ((sendBufs.flatten.drop ((sendBufs.map List.length).take i).sum).take
      (sendBufs.getD i []).length) = sendBufs.getD i [] := by
  induction sendBufs generalizing i with
  | nil => simp
  | cons b bs ih =>
    cases i with
    | zero => simp
    | succ i =>
      simp only [List.map_cons, List.take_succ_cons, List.sum_cons, List.flatten_cons,
        List.getD_cons_succ]
      rw [List.drop_append_eq_append_drop]
      have h1 : List.drop (b.length + ((bs.map List.length).take i).sum) b = [] := by
        apply List.drop_eq_nil_of_le
        omega
      have h2 : b.length + ((bs.map List.length).take i).sum - b.length =
          ((bs.map List.length).take i).sum := by omega
      rw [h1, h2, List.nil_append]
      exact ih i

theorem recvBufAll_mkState (W k : Nat) (graph : Graph) (D : List Nat) (F : Nat → List Nat) :
    recvBufAll W graph k (mkState W D F) = recvBufOf W k graph D F := by
  simp only [recvBufAll, mkState, recvBufOf, scanOf, List.map_map, Function.comp_def]

/-- A vertex announced in level `k` of a run is in range and at hop distance `k + 1`. -/
theorem recvBufOf_hopDist {W N s k : Nat} {graph : Graph} {D : List Nat} {F : Nat → List Nat}
    (hg : ValidGraph N graph) (hs : s < N) (hN : N ≤ INF)
    (h : LevelInv W N graph s k D F) (v : Nat) (hv : v ∈ recvBufOf W k graph D F) :
    HopDist graph s v (k + 1) := by
  obtain ⟨r, hr, hsend⟩ := (mem_recvBufOf W k graph D F v).mp hv
  obtain ⟨hD, _, hnb⟩ := ((scanOf_spec hg h r).send v).mp hsend
  obtain ⟨u, hu, _, hvu⟩ := (mem_nbrs h hr v).mp hnb
  exact hopDist_succ hu hvu (inv_inf_far hg hs hN h hD)

/-! ## Claims -/

/-- C1. For every adjacency structure `graph` on `N` vertices whose neighbour ids
all lie in `[0, N)`, every source in `[0, N)` and every worker count `W >= 1`,
`distributedBFS` returns (any bound of at least `N` loop iterations suffices),
and on every worker `dist[v]` is the number of edges of a shortest path from the
source to `v` when there is a path, and `INF` when there is none.  The bound
`N <= INF` holds for every `int N`. -/
theorem distributedBFS_shortest_paths (graph : Graph) (N source W fuel : Nat)
    (hW : 1 ≤ W) (hlen : graph.length = N) (hnb : ∀ l ∈ graph, ∀ v ∈ l, v < N)
    (hs : source < N) (hN : N ≤ INF) (hfuel : N ≤ fuel) :
    ∃ ws, distributedBFS fuel W N source graph = some ws ∧ ws.length = W ∧
      ∀ w ∈ ws, w.dist.length = N ∧ ∀ v, v < N →
        (∀ d, HopDist graph source v d → w.dist.getD v INF = d) ∧
        (Unreachable graph source v → w.dist.getD v INF = INF) := by
  obtain ⟨D1, F1, h1, h2, _⟩ :=
    distributedBFS_core hW (validGraph_of hlen hnb) hs hN fuel hfuel
  refine ⟨_, h1, length_mkState W D1 F1, ?_⟩
  intro w hw
  obtain ⟨r, _, rfl⟩ := mem_mkState hw
  exact h2

/-- C1, instance: the path `0 -> 1 -> 2` on three vertices, source `0`, two workers. -/
theorem distributedBFS_shortest_paths_witness :
    ∃ ws, distributedBFS 3 2 3 0 [[1], [2], []] = some ws ∧ ws.length = 2 ∧
      ∀ w ∈ ws, w.dist.length = 3 ∧ ∀ v, v < 3 →
        (∀ d, HopDist [[1], [2], []] 0 v d → w.dist.getD v INF = d) ∧
        (Unreachable [[1], [2], []] 0 v → w.dist.getD v INF = INF) :=
  distributedBFS_shortest_paths [[1], [2], []] 3 0 2 3 (by decide) rfl (by decide)
    (by decide) (by decide) (by decide)

/-- C2. The distance vector that `distributedBFS` computes does not depend on
the worker count: for every `W >= 1` the final vector on every worker equals the
final vector of the run with a single worker. -/
theorem distributedBFS_worker_count_independent (graph : Graph)
    (N source W fuel fuel1 : Nat)
    (hW : 1 ≤ W) (hlen : graph.length = N) (hnb : ∀ l ∈ graph, ∀ v ∈ l, v < N)
    (hs : source < N) (hN : N ≤ INF) (hfuel : N ≤ fuel) (hfuel1 : N ≤ fuel1) :
    ∃ ws w1, distributedBFS fuel W N source graph = some ws ∧ ws.length = W ∧
      distributedBFS fuel1 1 N source graph = some [w1] ∧
      ∀ w ∈ ws, w.dist = w1.dist := by
  have hg := validGraph_of hlen hnb
  obtain ⟨D1, F1, h1, h2, _⟩ := distributedBFS_core hW hg hs hN fuel hfuel
  obtain ⟨D2, F2, h3, h4, _⟩ :=
    distributedBFS_core (Nat.lt_succ_self 0) hg hs hN fuel1 hfuel1
  refine ⟨_, { rank := 0, dist := D2, Frontier := F2 0 }, h1, length_mkState W D1 F1, ?_, ?_⟩
  · rw [h3]
    rfl
  · intro w hw
    obtain ⟨r, _, rfl⟩ := mem_mkState hw
    exact distSpec_unique h2 h4

/-- C2, instance: a four-cycle with a chord, source `1`, four workers against one. -/
theorem distributedBFS_worker_count_independent_witness :
    ∃ ws w1, distributedBFS 4 4 4 1 [[1, 2], [2], [3], [0]] = some ws ∧ ws.length = 4 ∧
      distributedBFS 4 1 4 1 [[1, 2], [2], [3], [0]] = some [w1] ∧
      ∀ w ∈ ws, w.dist = w1.dist :=
  distributedBFS_worker_count_independent [[1, 2], [2], [3], [0]] 4 1 4 4 4 (by decide) rfl
    (by decide) (by decide) (by decide) (by decide) (by decide)

/-- C3, counterexample. The record `(0, 1, 1)` makes `0` a neighbour of `1`, and
the record `(0, 1, 0)` does not make `1` a neighbour of `0`; the claim demands
the opposite in both cases. -/
theorem readGraph_flag_counterexample :
    readGraph 2 [(0, 1, 1)] = [[1], [0]] ∧ specReadGraph 2 [(0, 1, 1)] = [[1], []] ∧
    readGraph 2 [(0, 1, 0)] = [[], [0]] ∧ specReadGraph 2 [(0, 1, 0)] = [[1], [0]] := by
  decide

/-- C3, amended. At load time a record `(u, v, d)` with `d = 1` appends `v` to the
neighbour list of `u` and then `u` to the neighbour list of `v`; a record with
any other flag (in particular `0`) appends only `u` to the neighbour list of
`v`.  No other list changes. -/
theorem readGraph_record (N : Nat) (pre : List (Nat × Nat × Int)) (u v : Nat) (d : Int)
    (hpre : ∀ e ∈ pre, e.1 < N ∧ e.2.1 < N) (hu : u < N) (hv : v < N) :
    (d = 1 → ∀ x, (readGraph N (pre ++ [(u, v, d)])).getD x [] =
        (readGraph N pre).getD x [] ++
          ((if x = u then [v] else []) ++ (if x = v then [u] else []))) ∧
    (d ≠ 1 → ∀ x, (readGraph N (pre ++ [(u, v, d)])).getD x [] =
        (readGraph N pre).getD x [] ++ (if x = v then [u] else [])) := by
  have hlen := (readGraph_spec N pre hpre).1
  constructor
  · intro hd x
    rw [readGraph_snoc, getD_addEdge _ _ (by rw [hlen]; exact hu) (by rw [hlen]; exact hv)]
    simp only [contrib, hd, if_true]
  · intro hd x
    rw [readGraph_snoc, getD_addEdge _ _ (by rw [hlen]; exact hu) (by rw [hlen]; exact hv)]
    simp only [contrib, hd, if_false]

/-- C3, instance: the records `(0, 1, 0)` and `(0, 1, 1)` on two vertices. -/
theorem readGraph_record_witness :
    (∀ x, (readGraph 2 ([] ++ [(0, 1, 0)])).getD x [] =
        (readGraph 2 []).getD x [] ++ (if x = 1 then [0] else [])) ∧
    (∀ x, (readGraph 2 ([] ++ [(0, 1, 1)])).getD x [] =
        (readGraph 2 []).getD x [] ++
          ((if x = 0 then [1] else []) ++ (if x = 1 then [0] else []))) :=
  ⟨(readGraph_record 2 [] 0 1 0 (by simp) (by decide) (by decide)).2 (by decide),
   (readGraph_record 2 [] 0 1 1 (by simp) (by decide) (by decide)).1 rfl⟩

/-- C4, counterexample. With the single record `(0, 1, 1)`, source `1` and query
`[0]` the program reports `1`, not `-1`: flag `1` loads the edge in both
directions. -/
theorem directed_flag_counterexample :
    mainOutput 2 1 2 [(0, 1, 1)] [0] 1 [] = some [1] ∧
    mainOutput 2 2 2 [(0, 1, 1)] [0] 1 [] = some [1] := by
  decide

/-- C4, amended. A record `(u, v, d)` with `d` other than `1` is loaded as the
single edge `v -> u`: when the other records provide no path from `u` to `v`,
the BFS from source `u` leaves `v` unreached and the query for `v` is reported
as `-1`. -/
theorem directed_record_not_reversed (W N fuel : Nat) (pre post : List (Nat × Nat × Int))
    (u v : Nat) (d : Int) (blocked : List Nat)
    (hW : 1 ≤ W) (hd : d ≠ 1)
    (he : ∀ e ∈ pre ++ (u, v, d) :: post, e.1 < N ∧ e.2.1 < N)
    (hN : N ≤ INF) (hfuel : N ≤ fuel)
    (hno : Unreachable (loadGraph N (pre ++ post) blocked) u v) :
    mainOutput fuel W N (pre ++ (u, v, d) :: post) [v] u blocked = some [-1] := by
  have huv := he (u, v, d) (by simp)
  obtain ⟨D, hD, hout⟩ := mainOutput_eq (pre ++ (u, v, d) :: post) [v] blocked hW he
    huv.1 hN fuel hfuel
  have hun := unreachable_with_back_edge pre post u v d blocked hd he hno
  rw [hout]
  simp only [report, List.map_cons, List.map_nil, (hD.2 v huv.2).2 hun, if_true]

/-- C4, instance: the single record `(0, 1, 0)`, source `0`, query `[1]` gives `-1`. -/
theorem directed_record_not_reversed_witness :
    mainOutput 2 1 2 [(0, 1, 0)] [1] 0 [] = some [-1] :=
  directed_record_not_reversed 1 2 2 [] [] 0 1 0 [] (by decide) (by decide)
    (by simp) (by decide) (by decide)
    (unreachable_isolated (N := 2) [] [] (by simp) 0 1 (by decide) (by simp))

/-- C5, counterexample. With the flag-0 records `(0,1,0) (1,2,0) (2,3,0)`, source
`0` and query `[3]` the program reports `-1`, not `3`; and in the star joined by
flag-0 records every leaf is reported as `-1`, not `1`. -/
theorem undirected_flag_counterexample :
    mainOutput 4 1 4 [(0, 1, 0), (1, 2, 0), (2, 3, 0)] [3] 0 [] = some [-1] ∧
    mainOutput 11 1 11 ((List.range 10).map (fun j => (0, j + 1, 0))) (List.range' 1 10) 0 []
      = some (List.replicate 10 (-1)) := by
  decide

/-- C5, amended. For every input whose edge records all carry flag `1` and that
has no blocked vertex, and for every `W >= 1`, the value reported for each query
vertex is its shortest-hop distance from the source in the undirected graph
formed by the records.  Instances: the records `(0,1,1) (1,2,1) (2,3,1)`, source
`0`, query `[3]` give `3`; the star with centre `0` joined by flag-1 records to
the vertices `1..10`, source `0`, gives `1` for each leaf for every `W` from `1`
to `10`. -/
theorem undirected_records_hop_distance :
    (∀ (W N R fuel : Nat) (edges : List (Nat × Nat × Int)) (explorers : List Nat),
      1 ≤ W → (∀ e ∈ edges, e.1 < N ∧ e.2.1 < N) → (∀ e ∈ edges, e.2.2 = 1) →
      R < N → N ≤ INF → N ≤ fuel →
      ∃ out, mainOutput fuel W N edges explorers R [] = some out ∧
        out.length = explorers.length ∧
        ∀ i q : Nat, explorers[i]? = some q → q < N →
          ∀ d, UHopDist edges R q d → out[i]? = some (d : Int)) ∧
    mainOutput 4 1 4 [(0, 1, 1), (1, 2, 1), (2, 3, 1)] [3] 0 [] = some [3] ∧
    (∀ W ∈ List.range' 1 10,
      mainOutput 11 W 11 ((List.range 10).map (fun j => (0, j + 1, 1))) (List.range' 1 10) 0 []
        = some (List.replicate 10 1)) := by
  refine ⟨?_, by decide, by decide⟩
  intro W N R fuel edges explorers hW he hflag hR hN hfuel
  obtain ⟨D, hD, hout⟩ := mainOutput_eq edges explorers [] hW he hR hN fuel hfuel
  refine ⟨_, hout, length_report D explorers, ?_⟩
  intro i q hq hqN d hd
  have hg := validGraph_loadGraph N edges [] he
  exact (report_entry hg hR hN hD explorers i q hq hqN).1 d
    ((hopDist_iff_uhopDist edges he hflag R q d).mpr hd)

/-- C5, instance: the undirected path on four vertices, three workers, all
four vertices queried. -/
theorem undirected_records_hop_distance_witness :
    ∃ out, mainOutput 4 3 4 [(0, 1, 1), (1, 2, 1), (2, 3, 1)] [3, 2, 1, 0] 0 [] = some out ∧
      out.length = [3, 2, 1, 0].length ∧
      ∀ i q : Nat, [3, 2, 1, 0][i]? = some q → q < 4 →
        ∀ d, UHopDist [(0, 1, 1), (1, 2, 1), (2, 3, 1)] 0 q d → out[i]? = some (d : Int) :=
  undirected_records_hop_distance.1 3 4 0 4 [(0, 1, 1), (1, 2, 1), (2, 3, 1)] [3, 2, 1, 0]
    (by decide) (by decide) (by decide) (by decide) (by decide) (by decide)

/-- C6. For every graph with `N >= 1` vertices, every source in `[0, N)` and every
worker count `W >= 1`, the distance of the source is `0` on every worker when
`distributedBFS` returns; it is `0` on every worker after the initial broadcast
(`j = 0`) and after every execution of the loop body (`j >= 1`). -/
theorem source_distance_zero (graph : Graph) (N source W fuel : Nat)
    (hW : 1 ≤ W) (hlen : graph.length = N) (hnb : ∀ l ∈ graph, ∀ v ∈ l, v < N)
    (hs : source < N) (hN : N ≤ INF) (hfuel : N ≤ fuel) :
    (∃ ws, distributedBFS fuel W N source graph = some ws ∧ ws.length = W ∧
      ∀ w ∈ ws, w.dist.getD source INF = 0) ∧
    ∀ j, (runLevels W N source graph j).length = W ∧
      ∀ w ∈ runLevels W N source graph j, w.dist.getD source INF = 0 := by
  have hg := validGraph_of hlen hnb
  constructor
  · obtain ⟨D1, F1, h1, h2, _⟩ := distributedBFS_core hW hg hs hN fuel hfuel
    refine ⟨_, h1, length_mkState W D1 F1, ?_⟩
    intro w hw
    obtain ⟨r, _, rfl⟩ := mem_mkState hw
    exact (h2.2 source hs).1 0 (hopDist_source graph source)
  · intro j
    obtain ⟨D, F, hrun, hinv⟩ := runLevels_inv hW hg hs hN j
    rw [hrun]
    refine ⟨length_mkState W D F, ?_⟩
    intro w hw
    obtain ⟨r, _, rfl⟩ := mem_mkState hw
    exact hinv.near source 0 (Nat.zero_le j) (hopDist_source graph source)

/-- C6, instance: a three-cycle, source `2`, two workers. -/
theorem source_distance_zero_witness :
    (∃ ws, distributedBFS 3 2 3 2 [[1], [2], [0]] = some ws ∧ ws.length = 2 ∧
      ∀ w ∈ ws, w.dist.getD 2 INF = 0) ∧
    ∀ j, (runLevels 2 3 2 [[1], [2], [0]] j).length = 2 ∧
      ∀ w ∈ runLevels 2 3 2 [[1], [2], [0]] j, w.dist.getD 2 INF = 0 :=
  source_distance_zero [[1], [2], [0]] 3 2 2 3 (by decide) rfl (by decide) (by decide)
    (by decide) (by decide)

/-- C7. For every query vertex that is unreachable from the source in the loaded
adjacency structure the value written is `-1`, and for every reachable query
vertex the value written is its hop distance; the values are written in the
order of the query list.  A vertex other than the source that no record
mentions is unreachable. -/
theorem mainOutput_report (W N R fuel : Nat) (edges : List (Nat × Nat × Int))
    (explorers blocked : List Nat)
    (hW : 1 ≤ W) (he : ∀ e ∈ edges, e.1 < N ∧ e.2.1 < N)
    (hR : R < N) (hN : N ≤ INF) (hfuel : N ≤ fuel) :
    (∃ out, mainOutput fuel W N edges explorers R blocked = some out ∧
      out.length = explorers.length ∧
      ∀ i q : Nat, explorers[i]? = some q → q < N →
        (Unreachable (loadGraph N edges blocked) R q → out[i]? = some (-1)) ∧
        (∀ d, HopDist (loadGraph N edges blocked) R q d →
          out[i]? = some (d : Int) ∧ d < INF)) ∧
    (∀ q, q ≠ R → (∀ e ∈ edges, e.1 ≠ q ∧ e.2.1 ≠ q) →
      Unreachable (loadGraph N edges blocked) R q) := by
  constructor
  · obtain ⟨D, hD, hout⟩ := mainOutput_eq edges explorers blocked hW he hR hN fuel hfuel
    refine ⟨_, hout, length_report D explorers, ?_⟩
    intro i q hq hqN
    have hg := validGraph_loadGraph N edges blocked he
    have h := report_entry hg hR hN hD explorers i q hq hqN
    refine ⟨h.2, ?_⟩
    intro d hd
    exact ⟨h.1 d hd, (distSpec_lt hg hR hN hD hd).2⟩
  · intro q hq hiso
    exact unreachable_isolated edges blocked he R q hq hiso

/-- C7, instance: six vertices, vertex `5` without edges, source `0`, query `[5]`. -/
theorem mainOutput_report_witness :
    mainOutput 6 2 6 [(0, 1, 1)] [5] 0 [] = some [-1] ∧
    ((∃ out, mainOutput 6 2 6 [(0, 1, 1)] [5] 0 [] = some out ∧
      out.length = [5].length ∧
      ∀ i q : Nat, [5][i]? = some q → q < 6 →
        (Unreachable (loadGraph 6 [(0, 1, 1)] []) 0 q → out[i]? = some (-1)) ∧
        (∀ d, HopDist (loadGraph 6 [(0, 1, 1)] []) 0 q d →
          out[i]? = some (d : Int) ∧ d < INF)) ∧
    (∀ q, q ≠ 0 → (∀ e ∈ [((0 : Nat), (1 : Nat), (1 : Int))], e.1 ≠ q ∧ e.2.1 ≠ q) →
      Unreachable (loadGraph 6 [(0, 1, 1)] []) 0 q)) :=
  ⟨by decide,
   mainOutput_report 2 6 0 6 [(0, 1, 1)] [5] [] (by decide) (by decide) (by decide)
    (by decide) (by decide)⟩

/-- C8. After load the neighbour list of every blocked vertex is empty and the
neighbour list of every other vertex is what the edge records produced.  The
scan of a blocked frontier vertex changes nothing, and in every run each vertex
with a finite distance other than the source has a neighbour-list entry in a
vertex that is not blocked and lies one hop closer.  A blocked vertex can still
receive a finite distance.  Instance: the records `(0,1,0) (1,2,0) (2,3,0)`,
source `0`, vertex `2` blocked, query `[3]` give `-1`. -/
theorem blocked_vertices_dead_end (N : Nat) (edges : List (Nat × Nat × Int))
    (blocked : List Nat) :
    (∀ b ∈ blocked, (loadGraph N edges blocked).getD b [] = []) ∧
    (∀ x, x ∉ blocked →
      (loadGraph N edges blocked).getD x [] = (readGraph N edges).getD x []) ∧
    (∀ b ∈ blocked, ∀ (rank size level : Nat) (st : ScanState),
      ((loadGraph N edges blocked).getD b []).foldl (visit rank size level) st = st) ∧
    (∀ W R fuel : Nat, 1 ≤ W → (∀ e ∈ edges, e.1 < N ∧ e.2.1 < N) → R < N → N ≤ INF →
      N ≤ fuel →
      ∃ ws, distributedBFS fuel W N R (loadGraph N edges blocked) = some ws ∧
        ∀ w ∈ ws, ∀ v, v < N → v ≠ R → w.dist.getD v INF ≠ INF →
          ∃ u, u ∉ blocked ∧ v ∈ (readGraph N edges).getD u [] ∧
            w.dist.getD u INF + 1 = w.dist.getD v INF) ∧
    mainOutput 4 1 4 [(1, 0, 0), (2, 1, 0), (3, 2, 0)] [2, 3] 0 [2] = some [2, -1] ∧
    mainOutput 4 1 4 [(0, 1, 0), (1, 2, 0), (2, 3, 0)] [3] 0 [2] = some [-1] := by
  refine ⟨?_, ?_, ?_, ?_, by decide, by decide⟩
  · intro b hb
    rw [getD_loadGraph_blocked, if_pos hb]
  · intro x hx
    rw [getD_loadGraph_blocked, if_neg hx]
  · intro b hb rank size level st
    rw [getD_loadGraph_blocked, if_pos hb]
    rfl
  · intro W R fuel hW he hR hN hfuel
    have hg := validGraph_loadGraph N edges blocked he
    obtain ⟨D1, F1, h1, h2, _⟩ := distributedBFS_core hW hg hR hN fuel hfuel
    refine ⟨_, h1, ?_⟩
    intro w hw v hvN hvR hfin
    obtain ⟨r, _, rfl⟩ := mem_mkState hw
    simp only at hfin ⊢
    have hd := distSpec_finite h2 hvN hfin
    cases hk : D1.getD v INF with
    | zero =>
      rw [hk] at hd
      exact absurd (walk_zero hd.1) hvR
    | succ k =>
      rw [hk] at hd
      obtain ⟨u, hu, hvu⟩ := hopDist_pred hd
      have hub : u ∉ blocked := by
        intro hb
        rw [getD_loadGraph_blocked, if_pos hb] at hvu
        cases hvu
      rw [getD_loadGraph_blocked, if_neg hub] at hvu
      exact ⟨u, hub, hvu, by rw [(distSpec_lt hg hR hN h2 hu).1]⟩

/-- C8, instance: the chain `0 -> 1 -> 2 -> 3` with vertex `2` blocked, two workers. -/
theorem blocked_vertices_dead_end_witness :
    ∃ ws, distributedBFS 4 2 4 0
        (loadGraph 4 [(1, 0, 0), (2, 1, 0), (3, 2, 0)] [2]) = some ws ∧
      ∀ w ∈ ws, ∀ v, v < 4 → v ≠ 0 → w.dist.getD v INF ≠ INF →
        ∃ u, u ∉ [2] ∧ v ∈ (readGraph 4 [(1, 0, 0), (2, 1, 0), (3, 2, 0)]).getD u [] ∧
          w.dist.getD u INF + 1 = w.dist.getD v INF :=
  (blocked_vertices_dead_end 4 [(1, 0, 0), (2, 1, 0), (3, 2, 0)] [2]).2.2.2.1 2 0 4
    (by decide) (by decide) (by decide) (by decide) (by decide)

/-- C9. For every graph with `N` vertices, valid source and `W >= 1` the level loop
halts: with room for `N` executions of the body (or more) it returns, the
number `lvl + 1` of executions is at most `N`, the returned state is the one after
`lvl + 1` executions, in it every worker's frontier is empty, and after each
smaller number `j >= 1` of executions some worker's frontier is not empty. -/
theorem level_loop_halts (graph : Graph) (N source W fuel : Nat)
    (hW : 1 ≤ W) (hlen : graph.length = N) (hnb : ∀ l ∈ graph, ∀ v ∈ l, v < N)
    (hs : source < N) (hN : N ≤ INF) (hfuel : N ≤ fuel) :
    ∃ lvl ws, bfsLoop W N graph fuel 0 (initState W N source) = some (lvl, ws) ∧
      lvl + 1 ≤ N ∧
      ws = runLevels W N source graph (lvl + 1) ∧
      globalHasWork ws = false ∧
      (∀ w ∈ ws, w.Frontier = []) ∧
      ∀ j, 1 ≤ j → j ≤ lvl → globalHasWork (runLevels W N source graph j) = true := by
  obtain ⟨lvl, D1, F1, h1, h2, h3, _, h5, h6⟩ :=
    bfsLoop_init hW (validGraph_of hlen hnb) hs hN fuel hfuel
  exact ⟨lvl, _, h1, h3, h2.symm, h5, frontier_nil_of_no_work h5, h6⟩

/-- C9, instance: the path `0 -> 1 -> 2`, source `0`, two workers, exactly `N = 3`
executions allowed. -/
theorem level_loop_halts_witness :
    ∃ lvl ws, bfsLoop 2 3 [[1], [2], []] 3 0 (initState 2 3 0) = some (lvl, ws) ∧
      lvl + 1 ≤ 3 ∧
      ws = runLevels 2 3 0 [[1], [2], []] (lvl + 1) ∧
      globalHasWork ws = false ∧
      (∀ w ∈ ws, w.Frontier = []) ∧
      ∀ j, 1 ≤ j → j ≤ lvl → globalHasWork (runLevels 2 3 0 [[1], [2], []] j) = true :=
  level_loop_halts [[1], [2], []] 3 0 2 3 (by decide) rfl (by decide) (by decide)
    (by decide) (by decide)

/-- C10. Once the distance of a vertex is finite on some worker at the end of a
level `j` (or after the initial broadcast, `j = 0`), every worker holds exactly
that value at the end of every later level.  Within a level neither the frontier
scan nor the processing of received vertices writes a finite slot, and the
minimum reduction of equal values returns that value. -/
theorem finite_distance_stable (graph : Graph) (N source W : Nat)
    (hW : 1 ≤ W) (hlen : graph.length = N) (hnb : ∀ l ∈ graph, ∀ v ∈ l, v < N)
    (hs : source < N) (hN : N ≤ INF) :
    (∀ j j2 v, j ≤ j2 → ∀ w ∈ runLevels W N source graph j, w.dist.getD v INF ≠ INF →
      ∀ w2 ∈ runLevels W N source graph j2, w2.dist.getD v INF = w.dist.getD v INF) ∧
    (∀ (rank size level : Nat) (st : ScanState) (a v : Nat), st.dist.getD v INF ≠ INF →
      (visit rank size level st a).dist.getD v INF = st.dist.getD v INF) ∧
    (∀ (rank size level : Nat) (st : ScanState) (a v : Nat), st.dist.getD v INF ≠ INF →
      (receive rank size level st a).dist.getD v INF = st.dist.getD v INF) ∧
    (∀ (xs : List Nat) (c : Nat), xs ≠ [] → (∀ x ∈ xs, x = c) → minOver xs = c) := by
  have hg := validGraph_of hlen hnb
  refine ⟨?_, visit_keeps, receive_keeps, fun xs c hne h => minOver_const xs c hne h⟩
  intro j j2 v hj w hw hfin w2 hw2
  obtain ⟨D, F, hrun, hinv⟩ := runLevels_inv hW hg hs hN j
  obtain ⟨D2, F2, hrun2, hinv2⟩ := runLevels_inv hW hg hs hN j2
  rw [hrun] at hw
  rw [hrun2] at hw2
  obtain ⟨r, _, rfl⟩ := mem_mkState hw
  obtain ⟨r2, _, rfl⟩ := mem_mkState hw2
  simp only at hfin ⊢
  obtain ⟨d, hd, hd2, hval⟩ := inv_finite hinv hfin
  rw [hval]
  exact hinv2.near v d (by omega) hd2

/-- C10, instance: the path `0 -> 1 -> 2`, source `0`, two workers. -/
theorem finite_distance_stable_witness :
    (0 < 3 ∧ 3 ≤ INF) ∧
    ∀ j j2 v, j ≤ j2 → ∀ w ∈ runLevels 2 3 0 [[1], [2], []] j, w.dist.getD v INF ≠ INF →
      ∀ w2 ∈ runLevels 2 3 0 [[1], [2], []] j2, w2.dist.getD v INF = w.dist.getD v INF :=
  ⟨by decide,
   (finite_distance_stable [[1], [2], []] 3 0 2 (by decide) rfl (by decide) (by decide)
    (by decide)).1⟩

/-- C11. After the initial source broadcast and after the reconciliation step of
every level all `W` workers hold the same distance vector, and it is the
element-wise minimum of the vectors the workers held just before: every slot is
a lower bound of that slot over all workers and is attained by one of them. -/
theorem reconciliation_identical_min (graph : Graph) (N source W : Nat)
    (hW : 1 ≤ W) (hs : source < N) :
    (∀ w ∈ initState W N source, w.dist = allreduceMin N (preBroadcast W N source)) ∧
    (∀ (level : Nat) (ws : List Worker), ws.length = W →
      ∀ w ∈ levelBody W N graph level ws,
        w.dist = allreduceMin N (preReconcile W graph level ws) ∧
        ∀ i, i < N →
          (∀ d ∈ preReconcile W graph level ws, w.dist.getD i INF ≤ d.getD i INF) ∧
          (∃ d ∈ preReconcile W graph level ws, w.dist.getD i INF = d.getD i INF)) ∧
    (∀ j, ∀ w ∈ runLevels W N source graph (j + 1),
      w.dist = allreduceMin N (preReconcile W graph j (runLevels W N source graph j))) ∧
    (∀ j, ∀ w1 ∈ runLevels W N source graph j, ∀ w2 ∈ runLevels W N source graph j,
      w1.dist = w2.dist) := by
  refine ⟨?_, ?_, ?_, ?_⟩
  · intro w hw
    rw [dist_initState hW hs hw, allreduceMin_preBroadcast hW hs]
  · intro level ws hlen w hw
    have hne : preReconcile W graph level ws ≠ [] := by
      intro hc
      have := congrArg List.length hc
      simp [preReconcile, hlen] at this
      omega
    rw [dist_levelBody hw]
    exact ⟨rfl, fun i hi => allreduceMin_is_min N _ hne i hi⟩
  · intro j w hw
    exact dist_levelBody hw
  · intro j w1 hw1 w2 hw2
    cases j with
    | zero => rw [dist_initState hW hs hw1, dist_initState hW hs hw2]
    | succ j => rw [dist_levelBody hw1, dist_levelBody hw2]

/-- C11, instance: four vertices, source `1`, three workers. -/
theorem reconciliation_identical_min_witness :
    (∀ w ∈ initState 3 4 1, w.dist = allreduceMin 4 (preBroadcast 3 4 1)) ∧
    (∀ j, ∀ w1 ∈ runLevels 3 4 1 [[1, 2], [2], [3], [0]] j,
      ∀ w2 ∈ runLevels 3 4 1 [[1, 2], [2], [3], [0]] j, w1.dist = w2.dist) :=
  ⟨(reconciliation_identical_min [[1, 2], [2], [3], [0]] 4 1 3 (by decide) (by decide)).1,
   (reconciliation_identical_min [[1, 2], [2], [3], [0]] 4 1 3 (by decide) (by decide)).2.2.2⟩

/-- C12. Distance reconciliation is idempotent: for every `W >= 1` the element-wise
minimum reduction of `W` identical copies of a distance vector of `N` slots is
that vector, so reconciling the result of a reconciliation changes nothing. -/
theorem reconciliation_idempotent (W N : Nat) (D : List Nat) (hW : 1 ≤ W)
    (hD : D.length = N) :
    allreduceMin N (List.replicate W D) = D ∧
    ∀ dists : List (List Nat),
      allreduceMin N (List.replicate W (allreduceMin N dists)) = allreduceMin N dists :=
  ⟨allreduceMin_replicate W N D hW hD,
   fun dists => allreduceMin_replicate W N _ hW (length_allreduceMin N dists)⟩

/-- C12, instance: four copies of the vector `[0, 1, INF]`. -/
theorem reconciliation_idempotent_witness :
    allreduceMin 3 (List.replicate 4 [0, 1, INF]) = [0, 1, INF] ∧
    ∀ dists : List (List Nat),
      allreduceMin 3 (List.replicate 4 (allreduceMin 3 dists)) = allreduceMin 3 dists :=
  reconciliation_idempotent 4 3 [0, 1, INF] (by decide) rfl

/-- C13. In the level numbered `k` every slot that a worker changes, by its
frontier scan or by processing a received announcement, held `INF` and is set
to exactly `k + 1`; this holds for each single write, for the whole level of a
worker, and for the vector after reconciliation. -/
theorem level_writes_next_level :
    (∀ (rank size k : Nat) (st : ScanState) (a v : Nat),
      (visit rank size k st a).dist.getD v INF ≠ st.dist.getD v INF →
        st.dist.getD v INF = INF ∧ (visit rank size k st a).dist.getD v INF = k + 1) ∧
    (∀ (rank size k : Nat) (st : ScanState) (a v : Nat),
      (receive rank size k st a).dist.getD v INF ≠ st.dist.getD v INF →
        st.dist.getD v INF = INF ∧ (receive rank size k st a).dist.getD v INF = k + 1) ∧
    (∀ (size : Nat) (graph : Graph) (k : Nat) (RecvBuf : List Nat) (w : Worker) (v : Nat),
      (localLevel size graph k RecvBuf w).dist.getD v INF ≠ w.dist.getD v INF →
        w.dist.getD v INF = INF ∧
        (localLevel size graph k RecvBuf w).dist.getD v INF = k + 1) ∧
    (∀ (graph : Graph) (N source W k : Nat), 1 ≤ W → graph.length = N →
      (∀ l ∈ graph, ∀ v ∈ l, v < N) → source < N → N ≤ INF →
      ∀ w ∈ runLevels W N source graph k, ∀ w1 ∈ runLevels W N source graph (k + 1),
        ∀ v, w1.dist.getD v INF ≠ w.dist.getD v INF →
          w.dist.getD v INF = INF ∧ w1.dist.getD v INF = k + 1 ∧ k + 1 < INF) := by
  refine ⟨?_, ?_, ?_, ?_⟩
  · intro rank size k st a v hne
    rcases visit_writes rank size k st a v with h | h
    · exact absurd h hne
    · exact h
  · intro rank size k st a v hne
    rcases receive_writes rank size k st a v with h | h
    · exact absurd h hne
    · exact h
  · intro size graph k RecvBuf w v hne
    rcases localLevel_writes size graph k RecvBuf w v with h | h
    · exact absurd h hne
    · exact h
  · intro graph N source W k hW hlen hnb hs hN w hw w1 hw1 v hne
    have hg := validGraph_of hlen hnb
    obtain ⟨D, F, hrun, hinv⟩ := runLevels_inv hW hg hs hN k
    have hrun1 : runLevels W N source graph (k + 1) =
        mkState W (nextDist W N k graph D F) (nextFront W k graph D F) := by
      show levelBody W N graph k (runLevels W N source graph k) = _
      rw [hrun, levelBody_next]
    rw [hrun] at hw
    rw [hrun1] at hw1
    obtain ⟨r, _, rfl⟩ := mem_mkState hw
    obtain ⟨r1, _, rfl⟩ := mem_mkState hw1
    simp only at hne ⊢
    rcases nextDist_writes hW hg hs hN hinv v with h | ⟨h1, h2⟩
    · exact absurd h hne
    · refine ⟨h1, h2, ?_⟩
      have hne2 : k + 1 ≠ INF := by
        intro hc
        apply hne
        rw [h1, h2, hc]
      have hvN : v < N := by
        by_contra hc
        apply hne
        rw [getD_ge_length D v (by rw [hinv.len]; omega),
          getD_ge_length (nextDist W N k graph D F) v (by rw [length_nextDist]; omega)]
      by_cases hd : ∃ u, HopDist graph source u k ∧ v ∈ graph.getD u []
      · obtain ⟨u, hu, _⟩ := hd
        have := hopDist_lt hg hs hu
        omega
      · exact absurd ((nextDist_untouched hW hg hinv v hvN hd).trans h1)
          (by rw [h2]; exact hne2)

/-- C13, instance: the path `0 -> 1 -> 2`, source `0`, two workers, level `0`. -/
theorem level_writes_next_level_witness :
    (1 ≤ 2 ∧ 0 < 3 ∧ 3 ≤ INF) ∧
    ∀ w ∈ runLevels 2 3 0 [[1], [2], []] 0, ∀ w1 ∈ runLevels 2 3 0 [[1], [2], []] (0 + 1),
      ∀ v, w1.dist.getD v INF ≠ w.dist.getD v INF →
        w.dist.getD v INF = INF ∧ w1.dist.getD v INF = 0 + 1 ∧ 0 + 1 < INF :=
  ⟨by decide,
   level_writes_next_level.2.2.2 [[1], [2], []] 3 0 2 0 (by decide) rfl (by decide)
    (by decide) (by decide)⟩

/-- C14. Every vertex placed in a worker's frontier is owned by that worker
(`v mod W` is the worker's rank), no worker's frontier contains a vertex twice,
and a vertex that occurs in two frontiers of the run occurs in the same level
on the same worker: over the whole run each vertex is placed in a frontier at
most once. -/
theorem frontier_owned_once (graph : Graph) (N source W : Nat)
    (hW : 1 ≤ W) (hlen : graph.length = N) (hnb : ∀ l ∈ graph, ∀ v ∈ l, v < N)
    (hs : source < N) (hN : N ≤ INF) :
    (∀ j, ∀ w ∈ runLevels W N source graph j,
      (∀ v ∈ w.Frontier, v < N ∧ v % W = w.rank) ∧ w.Frontier.Nodup) ∧
    (∀ j1 j2 v, ∀ w1 ∈ runLevels W N source graph j1, ∀ w2 ∈ runLevels W N source graph j2,
      v ∈ w1.Frontier → v ∈ w2.Frontier → j1 = j2 ∧ w1 = w2) := by
  have hg := validGraph_of hlen hnb
  constructor
  · intro j w hw
    obtain ⟨D, F, hrun, hinv, hnd⟩ := runLevels_front hW hg hs hN j
    rw [hrun] at hw
    obtain ⟨r, hr, rfl⟩ := mem_mkState hw
    refine ⟨?_, hnd r hr⟩
    intro v hv
    have := (hinv.front r hr v).mp hv
    exact ⟨walk_lt hg hs this.1.1, this.2⟩
  · intro j1 j2 v w1 hw1 w2 hw2 hv1 hv2
    obtain ⟨D1, F1, hrun1, hinv1⟩ := runLevels_inv hW hg hs hN j1
    obtain ⟨D2, F2, hrun2, hinv2⟩ := runLevels_inv hW hg hs hN j2
    rw [hrun1] at hw1
    rw [hrun2] at hw2
    obtain ⟨r1, hr1, rfl⟩ := mem_mkState hw1
    obtain ⟨r2, hr2, rfl⟩ := mem_mkState hw2
    have h1 := (hinv1.front r1 hr1 v).mp hv1
    have h2 := (hinv2.front r2 hr2 v).mp hv2
    have hj : j1 = j2 := hopDist_unique h1.1 h2.1
    subst hj
    have hr : r1 = r2 := h1.2.symm.trans h2.2
    subst hr
    have hst := hrun1.symm.trans hrun2
    have hD : D1 = D2 := by
      have := congrArg (fun ws => ws.map (fun w => w.dist)) hst
      simp only [mkState, List.map_map, Function.comp_def] at this
      have h0 := congrArg (fun l => l.getD r1 []) this
      simp only [List.getD_eq_getElem?_getD, List.getElem?_map, List.getElem?_range hr1] at h0
      exact h0
    have hF : F1 r1 = F2 r1 := by
      have := congrArg (fun ws => ws.map (fun w => w.Frontier)) hst
      simp only [mkState, List.map_map, Function.comp_def] at this
      have h0 := congrArg (fun l => l.getD r1 []) this
      simp only [List.getD_eq_getElem?_getD, List.getElem?_map, List.getElem?_range hr1] at h0
      exact h0
    exact ⟨rfl, by rw [hD, hF]⟩

/-- C14, instance: a four-cycle with a chord, source `1`, three workers. -/
theorem frontier_owned_once_witness :
    (∀ j, ∀ w ∈ runLevels 3 4 1 [[1, 2], [2], [3], [0]] j,
      (∀ v ∈ w.Frontier, v < 4 ∧ v % 3 = w.rank) ∧ w.Frontier.Nodup) ∧
    (∀ j1 j2 v, ∀ w1 ∈ runLevels 3 4 1 [[1, 2], [2], [3], [0]] j1,
      ∀ w2 ∈ runLevels 3 4 1 [[1, 2], [2], [3], [0]] j2,
      v ∈ w1.Frontier → v ∈ w2.Frontier → j1 = j2 ∧ w1 = w2) :=
  frontier_owned_once [[1, 2], [2], [3], [0]] 4 1 3 (by decide) rfl (by decide)
    (by decide) (by decide)

/-- C15. Duplicate announcements are harmless: processing the received buffer
yields the same distance vector and the same next-level frontier as processing
that buffer with every repeated occurrence of a vertex removed, the first
occurrence kept.  This holds for every worker at every level of every run with
the buffer the exchange delivers; and, as a property of the receive loop alone,
for every worker, distance vector, level and buffer in which the received ids
lie within the vector and the written value `level + 1` is a distance, not the
sentinel `INF`.  In a run both conditions hold in every level whose received
buffer is not empty. -/
theorem duplicate_announcement_harmless :
    (∀ (graph : Graph) (N source W j : Nat), 1 ≤ W → graph.length = N →
      (∀ l ∈ graph, ∀ v ∈ l, v < N) → source < N → N ≤ INF →
      ∀ w ∈ runLevels W N source graph j,
        localLevel W graph j (recvBufAll W graph j (runLevels W N source graph j)) w =
          localLevel W graph j
            (keepFirst (recvBufAll W graph j (runLevels W N source graph j))) w ∧
        (localLevel W graph j (recvBufAll W graph j (runLevels W N source graph j)) w).dist =
          (localLevel W graph j
            (keepFirst (recvBufAll W graph j (runLevels W N source graph j))) w).dist ∧
        (localLevel W graph j
            (recvBufAll W graph j (runLevels W N source graph j)) w).NextFrontier =
          (localLevel W graph j
            (keepFirst (recvBufAll W graph j (runLevels W N source graph j))) w).NextFrontier) ∧
    (∀ (rank size level : Nat) (st : ScanState) (recv : List Nat),
      level + 1 ≠ INF → (∀ v ∈ recv, v < st.dist.length) →
      recv.foldl (receive rank size level) st =
        (keepFirst recv).foldl (receive rank size level) st ∧
      (recv.foldl (receive rank size level) st).dist =
        ((keepFirst recv).foldl (receive rank size level) st).dist ∧
      (recv.foldl (receive rank size level) st).NextFrontier =
        ((keepFirst recv).foldl (receive rank size level) st).NextFrontier) ∧
    (∀ (graph : Graph) (N source W j : Nat), 1 ≤ W → graph.length = N →
      (∀ l ∈ graph, ∀ v ∈ l, v < N) → source < N → N ≤ INF →
      recvBufAll W graph j (runLevels W N source graph j) ≠ [] →
      j + 1 < INF ∧
      ∀ v ∈ recvBufAll W graph j (runLevels W N source graph j), v < N) := by
  refine ⟨?_, ?_, ?_⟩
  · intro graph N source W j hW hlen hnb hs hN w hw
    have hg := validGraph_of hlen hnb
    obtain ⟨D, F, hrun, hinv⟩ := runLevels_inv hW hg hs hN j
    have heq : localLevel W graph j (recvBufAll W graph j (runLevels W N source graph j)) w =
        localLevel W graph j
          (keepFirst (recvBufAll W graph j (runLevels W N source graph j))) w := by
      rw [hrun, recvBufAll_mkState]
      rw [hrun] at hw
      obtain ⟨r, _, rfl⟩ := mem_mkState hw
      by_cases hne : recvBufOf W j graph D F = []
      · rw [hne]
        rfl
      · obtain ⟨v, hv⟩ := List.exists_mem_of_ne_nil _ hne
        have hlt := hopDist_lt hg hs (recvBufOf_hopDist hg hs hN hinv v hv)
        have hlvl : j + 1 ≠ INF := by omega
        have hlenst : (scanFrontier r W j graph (F r) D).dist.length = N :=
          ((scanOf_spec hg hinv r).len).trans hinv.len
        unfold localLevel
        exact (foldl_receive_keepFirst r W j hlvl _ _
          (fun x hx => by rw [hlenst]; exact recvBufOf_lt hg hinv x hx)).symm
    exact ⟨heq, by rw [heq], by rw [heq]⟩
  · intro rank size level st recv hlvl hin
    have h := foldl_receive_keepFirst rank size level hlvl recv st hin
    exact ⟨h.symm, by rw [h], by rw [h]⟩
  · intro graph N source W j hW hlen hnb hs hN hne
    have hg := validGraph_of hlen hnb
    obtain ⟨D, F, hrun, hinv⟩ := runLevels_inv hW hg hs hN j
    rw [hrun, recvBufAll_mkState] at hne ⊢
    constructor
    · obtain ⟨v, hv⟩ := List.exists_mem_of_ne_nil _ hne
      have := hopDist_lt hg hs (recvBufOf_hopDist hg hs hN hinv v hv)
      omega
    · intro v hv
      exact recvBufOf_lt hg hinv v hv

/-- C15, instance: level `0` of the run on the graph `0 -> 1, 0 -> 2, 0 -> 1` with
three workers, where rank `0` announces vertex `1` twice; and rank `1` of two
workers at level `0` receiving `[1, 2, 1, 1, 2]`. -/
theorem duplicate_announcement_harmless_witness :
    (recvBufAll 3 [[1, 2, 1], [], []] 0 (runLevels 3 3 0 [[1, 2, 1], [], []] 0) = [1, 2, 1] ∧
      keepFirst [1, 2, 1] = [1, 2]) ∧
    (∀ w ∈ runLevels 3 3 0 [[1, 2, 1], [], []] 0,
      localLevel 3 [[1, 2, 1], [], []] 0
          (recvBufAll 3 [[1, 2, 1], [], []] 0 (runLevels 3 3 0 [[1, 2, 1], [], []] 0)) w =
        localLevel 3 [[1, 2, 1], [], []] 0
          (keepFirst
            (recvBufAll 3 [[1, 2, 1], [], []] 0 (runLevels 3 3 0 [[1, 2, 1], [], []] 0))) w) ∧
    [1, 2, 1, 1, 2].foldl (receive 1 2 0)
        { dist := [0, INF, INF], NextFrontier := [], SendBuf := [] } =
      (keepFirst [1, 2, 1, 1, 2]).foldl (receive 1 2 0)
        { dist := [0, INF, INF], NextFrontier := [], SendBuf := [] } :=
  ⟨by decide,
   fun w hw => (duplicate_announcement_harmless.1 [[1, 2, 1], [], []] 3 0 3 0
      (by decide) rfl (by decide) (by decide) (by decide) w hw).1,
   (duplicate_announcement_harmless.2.1 1 2 0
      { dist := [0, INF, INF], NextFrontier := [], SendBuf := [] } [1, 2, 1, 1, 2]
      (by decide) (by decide)).1⟩

/-- C16. In the variable-length exchange, for every vector of per-worker send
sizes, `displs[i]` is the sum of `recvSizes[0..i-1]` and `totalRecv` is the sum
of all `recvSizes`; the segments `[displs[i], displs[i] + recvSizes[i])` start at
`0`, follow one another in rank order and end at `totalRecv`; the received
buffer is the concatenation of the send buffers in sender order, and the segment
of sender `i` holds its buffer. -/
theorem exchange_concatenates (size : Nat) (sendBufs : List (List Nat))
    (hsize : sendBufs.length = size) :
    (∀ i, i < size →
      (computeDispls size (sendBufs.map List.length)).getD i 0 =
        ((sendBufs.map List.length).take i).sum) ∧
    (sendBufs.map List.length).foldl (fun acc n => acc + n) 0 =
      (sendBufs.map List.length).sum ∧
    (0 < size → (computeDispls size (sendBufs.map List.length)).getD 0 0 = 0) ∧
    (∀ i, i + 1 < size →
      (computeDispls size (sendBufs.map List.length)).getD i 0 +
          (sendBufs.map List.length).getD i 0 =
        (computeDispls size (sendBufs.map List.length)).getD (i + 1) 0) ∧
    (0 < size →
      (computeDispls size (sendBufs.map List.length)).getD (size - 1) 0 +
          (sendBufs.map List.length).getD (size - 1) 0 =
        (sendBufs.map List.length).foldl (fun acc n => acc + n) 0) ∧
    exchange size sendBufs = sendBufs.flatten ∧
    (exchange size sendBufs).length =
      (sendBufs.map List.length).foldl (fun acc n => acc + n) 0 ∧
    (∀ i, i < size →
      ((exchange size sendBufs).drop
          ((computeDispls size (sendBufs.map List.length)).getD i 0)).take
          ((sendBufs.map List.length).getD i 0) = sendBufs.getD i []) := by
  have hex : exchange size sendBufs = sendBufs.flatten := by
    rw [← hsize]
    exact exchange_eq_flatten sendBufs
  have hsz : ∀ i, (sendBufs.map List.length).getD i 0 = (sendBufs.getD i []).length := by
    intro i
    have := List.getD_map sendBufs [] List.length (n := i)
    simpa [-List.getD_eq_getElem?_getD] using this
  refine ⟨fun i hi => getD_computeDispls _ _ i hi, foldl_add_zero_eq_sum _, ?_, ?_, ?_, hex,
    ?_, ?_⟩
  · intro h0
    rw [getD_computeDispls _ _ 0 h0]
    rfl
  · intro i hi
    rw [getD_computeDispls _ _ i (by omega), getD_computeDispls _ _ (i + 1) hi,
      sum_take_succ_getD]
  · intro h0
    rw [getD_computeDispls _ _ (size - 1) (by omega), foldl_add_zero_eq_sum,
      ← sum_take_succ_getD]
    have : size - 1 + 1 = (sendBufs.map List.length).length := by
      rw [List.length_map, hsize]
      omega
    rw [this, List.take_length]
  · rw [hex, foldl_add_zero_eq_sum, List.length_flatten]
  · intro i hi
    rw [hex, getD_computeDispls _ _ i hi, hsz i]
    exact flatten_segment sendBufs i

/-- C16, instance: three senders with the buffers `[5, 6]`, `[]` and `[7]`. -/
theorem exchange_concatenates_witness :
    computeDispls 3 [2, 0, 1] = [0, 2, 2] ∧
    exchange 3 [[5, 6], [], [7]] = [5, 6, 7] ∧
    exchange 3 [[5, 6], [], [7]] = [[5, 6], [], [7]].flatten :=
  ⟨by decide, by decide, (exchange_concatenates 3 [[5, 6], [], [7]] rfl).2.2.2.2.2.1⟩

end MazeEscape

/-! # Lemmas and theorems: bouncing balls -/

namespace BouncingBalls

/-! ## Directions -/

theorem dir_cases {d : Nat} (hd : d = L ∨ d = R ∨ d = U ∨ d = D) :
    d = 0 ∨ d = 1 ∨ d = 2 ∨ d = 3 := by
  simpa [L, R, U, D] using hd

/-! ## The initial distribution -/

theorem chunk_le (K size : Nat) (hsize : 0 < size) : (K + size - 1) / size ≤ K := by
  rw [Nat.div_le_iff_le_mul_add_pred hsize]
  have : K ≤ size * K := Nat.le_mul_of_pos_left K hsize
  omega

theorem chunk_cover (K size : Nat) (hsize : 0 < size) :
    K ≤ size * ((K + size - 1) / size) := by
  have h1 := Nat.div_add_mod (K + size - 1) size
  have h2 := Nat.mod_lt (K + size - 1) hsize
  omega

theorem resize_eq_take (pos : List Ball) (n : Nat) (h : n ≤ pos.length) :
    resize pos n = pos.take n := by
  unfold resize
  have : n - pos.length = 0 := by omega
  rw [this]
  simp

theorem length_flatMap_three (f : Nat → List Nat) (hf : ∀ j, (f j).length = 3) (n : Nat) :
    ((List.range n).flatMap f).length = n * 3 := by
  induction n with
  | zero => simp
  | succ n ih =>
    rw [List.range_succ, List.flatMap_append, List.length_append, ih]
    simp [hf n]
    omega

/-- Entry `t` of block `i` of a sequence of blocks of three numbers. -/
theorem getD_flatMap_three (f : Nat → List Nat) (hf : ∀ j, (f j).length = 3) (n i t : Nat)
    (hi : i < n) (ht : t < 3) :
    ((List.range n).flatMap f).getD (i * 3 + t) 0 = (f i).getD t 0 := by
  induction n with
  | zero => omega
  | succ n ih =>
    rw [List.range_succ, List.flatMap_append]
    by_cases hin : i < n
    · rw [List.getD_append _ _ _ _ (by rw [length_flatMap_three f hf n]; omega)]
      exact ih hin
    · have hi2 : i = n := by omega
      subst hi2
      rw [List.getD_append_right _ _ _ _ (by rw [length_flatMap_three f hf i]; omega),
        length_flatMap_three f hf i]
      have : i * 3 + t - i * 3 = t := by omega
      rw [this]
      simp

theorem unflatten_flatChunk (pos : List Ball) (start count : Nat) :
    unflatten (flatChunk pos start count) count =
      (List.range count).map (fun j => pos.getD (start + j) (0, 0, 0)) := by
  unfold unflatten
  apply List.map_congr_left
  intro i hi
  have hi2 : i < count := List.mem_range.mp hi
  have hf : ∀ j, ([(pos.getD (start + j) (0, 0, 0)).1, (pos.getD (start + j) (0, 0, 0)).2.1,
      (pos.getD (start + j) (0, 0, 0)).2.2] : List Nat).length = 3 := fun _ => rfl
  have h0 := getD_flatMap_three _ hf count i 0 hi2 (by omega)
  have h1 := getD_flatMap_three _ hf count i 1 hi2 (by omega)
  have h2 := getD_flatMap_three _ hf count i 2 hi2 (by omega)
  unfold flatChunk
  rw [Nat.add_zero] at h0
  rw [h0, h1, h2]
  rfl

theorem range_map_getD_eq (pos : List Ball) (start count : Nat)
    (h : start + count ≤ pos.length) :
    (List.range count).map (fun j => pos.getD (start + j) (0, 0, 0)) =
      (pos.drop start).take count := by
  apply List.ext_getElem?
  intro j
  rw [List.getElem?_map, List.getElem?_take, List.getElem?_drop]
  by_cases hj : j < count
  · rw [List.getElem?_range hj, if_pos hj]
    have hlt : start + j < pos.length := by omega
    simp [List.getD_eq_getElem?_getD, List.getElem?_eq_getElem hlt]
  · rw [if_neg hj, List.getElem?_eq_none (by simp; omega)]
    rfl

theorem take_min_length {α : Type} (l : List α) (c : Nat) :
    l.take (min c l.length) = l.take c := by
  by_cases h : c ≤ l.length
  · rw [Nat.min_eq_left h]
  · have h2 : l.length ≤ c := by omega
    rw [Nat.min_eq_right h2, List.take_of_length_le h2, List.take_of_length_le (Nat.le_refl _)]

theorem distribute_eq (size : Nat) (pos : List Ball) (hsize : 0 < size) (rank : Nat) :
    distribute size pos rank =
      (pos.drop (rank * ((pos.length + size - 1) / size))).take
        ((pos.length + size - 1) / size) := by
  have hc := chunk_le pos.length size hsize
  unfold distribute
  simp only []
  by_cases hr : rank = 0
  · subst hr
    simp only [if_true, Nat.zero_mul, List.drop_zero]
    exact resize_eq_take pos _ hc
  · rw [if_neg hr]
    generalize (pos.length + size - 1) / size = c at hc ⊢
    by_cases hcount : min ((rank + 1) * c) pos.length - rank * c > 0
    · rw [if_pos hcount, unflatten_flatChunk, range_map_getD_eq pos _ _ (by omega)]
      have hmul : (rank + 1) * c = rank * c + c := Nat.succ_mul rank c
      have hn : min ((rank + 1) * c) pos.length - rank * c =
          min c (pos.drop (rank * c)).length := by
        rw [List.length_drop]
        omega
      rw [hn, take_min_length]
    · rw [if_neg hcount]
      have hmul : (rank + 1) * c = rank * c + c := Nat.succ_mul rank c
      symm
      apply List.eq_nil_of_length_eq_zero
      simp only [List.length_take, List.length_drop]
      omega

/-- The chunks of the first `n` ranks, concatenated, are the first `n * c` balls. -/
theorem flatMap_chunks (pos : List Ball) (c n : Nat) :
    (List.range n).flatMap (fun r => (pos.drop (r * c)).take c) = pos.take (n * c) := by
  induction n with
  | zero => simp
  | succ n ih =>
    rw [List.range_succ, List.flatMap_append, ih, Nat.succ_mul, List.take_add]
    simp

theorem flatMap_distribute (size : Nat) (pos : List Ball) (hsize : 0 < size) :
    (List.range size).flatMap (distribute size pos) = pos := by
  have h1 : (List.range size).flatMap (distribute size pos) =
      (List.range size).flatMap
        (fun r => (pos.drop (r * ((pos.length + size - 1) / size))).take
          ((pos.length + size - 1) / size)) := by
    congr 1
    funext r
    exact distribute_eq size pos hsize r
  rw [h1, flatMap_chunks]
  apply List.take_of_length_le
  exact chunk_cover pos.length size hsize

/-- Each ball index lies in the range of exactly one rank. -/
theorem index_owner_unique (K size c : Nat) (hsize : 0 < size)
    (hc : c = (K + size - 1) / size) (k : Nat) (hk : k < K) :
    ∃! rank, rank < size ∧ rank * c ≤ k ∧ k < min ((rank + 1) * c) K := by
  have hcov := chunk_cover K size hsize
  rw [← hc] at hcov
  have hcpos : 0 < c := by
    rcases Nat.eq_zero_or_pos c with h0 | h0
    · rw [h0] at hcov
      omega
    · exact h0
  refine ⟨k / c, ⟨?_, ?_, ?_⟩, ?_⟩
  · apply Nat.div_lt_of_lt_mul
    rw [Nat.mul_comm]
    omega
  · exact Nat.div_mul_le_self k c
  · have h5 := Nat.lt_div_mul_add (a := k) hcpos
    have h6 : (k / c + 1) * c = k / c * c + c := Nat.succ_mul _ _
    omega
  · rintro r ⟨_, h2, h3⟩
    have h4 : k < (r + 1) * c := by omega
    exact (Nat.div_eq_of_lt_le h2 h4).symm

/-! ## The collision maps -/

theorem arrivals_nodup (N M X Y : Nat) : (arrivals N M X Y).Nodup := by
  simp [arrivals, L, R, U, D]

/-- C19. The initial distribution of `K` balls over `size >= 1` workers is a
partition: with `chunk_size = ceil(K / size)`, which is at most `K`, worker `0`
keeps the balls with indices `[0, chunk_size)` and worker `i >= 1` receives
those with indices `[i * chunk_size, min((i + 1) * chunk_size, K))`, none when
that range is empty; every index in `[0, K)` lies in the range of exactly one
worker, and the vectors of the workers, concatenated in rank order, are the
input. -/
theorem distribution_partition (size : Nat) (pos : List Ball) (chunk_size : Nat)
    (hsize : 1 ≤ size) (hc : chunk_size = (pos.length + size - 1) / size) :
    chunk_size ≤ pos.length ∧
    distribute size pos 0 = pos.take chunk_size ∧
    (∀ rank, rank < size →
      distribute size pos rank = (pos.drop (rank * chunk_size)).take chunk_size ∧
      (distribute size pos rank).length =
        min ((rank + 1) * chunk_size) pos.length - rank * chunk_size ∧
      ∀ j, j < (distribute size pos rank).length →
        rank * chunk_size + j < pos.length ∧
        (distribute size pos rank)[j]? = pos[rank * chunk_size + j]?) ∧
    (∀ k, k < pos.length →
      ∃! rank, rank < size ∧ rank * chunk_size ≤ k ∧
        k < min ((rank + 1) * chunk_size) pos.length) ∧
    (List.range size).flatMap (distribute size pos) = pos := by
  have hle := chunk_le pos.length size hsize
  rw [← hc] at hle
  have hd : ∀ rank, distribute size pos rank =
      (pos.drop (rank * chunk_size)).take chunk_size := by
    intro rank
    rw [hc]
    exact distribute_eq size pos hsize rank
  have hlen : ∀ rank, (distribute size pos rank).length =
      min ((rank + 1) * chunk_size) pos.length - rank * chunk_size := by
    intro rank
    rw [hd rank, List.length_take, List.length_drop, Nat.succ_mul]
    omega
  refine ⟨hle, ?_, ?_, ?_, flatMap_distribute size pos hsize⟩
  · rw [hd 0]
    simp
  · intro rank _
    refine ⟨hd rank, hlen rank, ?_⟩
    intro j hj
    rw [hlen rank] at hj
    have hmul : (rank + 1) * chunk_size = rank * chunk_size + chunk_size := Nat.succ_mul _ _
    refine ⟨by omega, ?_⟩
    rw [hd rank, List.getElem?_take, List.getElem?_drop, if_pos (by omega)]
  · intro k hk
    exact index_owner_unique pos.length size chunk_size hsize hc k hk

/-- C19, instance: seven balls over four workers, `chunk_size = 2`. -/
theorem distribution_partition_witness :
    (List.range 4).map
        (distribute 4 [(0, 0, 0), (0, 1, 1), (1, 0, 2), (1, 1, 3), (2, 0, 0), (2, 1, 1), (2, 2, 2)]) =
      [[(0, 0, 0), (0, 1, 1)], [(1, 0, 2), (1, 1, 3)], [(2, 0, 0), (2, 1, 1)], [(2, 2, 2)]] ∧
    (List.range 4).flatMap
        (distribute 4 [(0, 0, 0), (0, 1, 1), (1, 0, 2), (1, 1, 3), (2, 0, 0), (2, 1, 1), (2, 2, 2)]) =
      [(0, 0, 0), (0, 1, 1), (1, 0, 2), (1, 1, 3), (2, 0, 0), (2, 1, 1), (2, 2, 2)] :=
  ⟨by decide,
   (distribution_partition 4
      [(0, 0, 0), (0, 1, 1), (1, 0, 2), (1, 1, 3), (2, 0, 0), (2, 1, 1), (2, 2, 2)] 2
      (by decide) (by decide)).2.2.2.2⟩

/-- C20. For every direction `d` in `{L, R, U, D}`, `rotateBy90(rotateBy90(d))` is
`reverseDirection(d)`, `reverseDirection(reverseDirection(d))` is `d`, and
`rotateBy90` applied four times returns `d`: `rotateBy90` is the 4-cycle
`L -> U -> R -> D -> L`. -/
theorem rotate_reverse_cycle (d : Nat) (hd : d = L ∨ d = R ∨ d = U ∨ d = D) :
    rotateBy90 (rotateBy90 d) = reverseDirection d ∧
    reverseDirection (reverseDirection d) = d ∧
    rotateBy90 (rotateBy90 (rotateBy90 (rotateBy90 d))) = d ∧
    (rotateBy90 L = U ∧ rotateBy90 U = R ∧ rotateBy90 R = D ∧ rotateBy90 D = L) := by
  rcases dir_cases hd with h | h | h | h <;> subst h <;> decide

/-- C20, instance: the direction `U`. -/
theorem rotate_reverse_cycle_witness :
    rotateBy90 (rotateBy90 U) = reverseDirection U ∧
    reverseDirection (reverseDirection U) = U ∧
    rotateBy90 (rotateBy90 (rotateBy90 (rotateBy90 U))) = U ∧
    (rotateBy90 L = U ∧ rotateBy90 U = R ∧ rotateBy90 R = D ∧ rotateBy90 D = L) :=
  rotate_reverse_cycle U (Or.inr (Or.inr (Or.inl rfl)))

end BouncingBalls
